import Mathlib

/-!
# Verification of `numeric.hpp` and `pearson_problem.cpp`

A shallow embedding of the selection core (`partition`, `select`, `median`,
`mad`) and of the auxiliary reductions (`mean`, `variance`, `correlation`).

Modelling conventions.

* A C++ array `T* xs` is a `List α`; every read and write is bounds-checked,
  and an access outside the list makes the operation return `none` (the C++
  behaviour there is undefined).
* `size_t` indices are natural numbers.  Under the preconditions of the
  statements below every index that is computed is smaller than the length of
  the array, so no index arithmetic wraps around.
* `std::rand()` is an arbitrary stream `rand : Nat → Nat`; the state of the
  generator is the number `t` of values drawn so far.  Functions that draw
  random numbers take `t` and return the new counter.
* `double` arithmetic is read exactly: over `ℚ` in `median` and `mad`, and
  over an arbitrary field `K` (with `std::sqrt` a parameter) in the reductions
  of `pearson_problem.cpp`.
* The two overloads of `select` are `impl.select` (sub-range `[l, r)`) and
  `impl.select3` (whole array of length `n`).
-/

namespace numeric

namespace impl

variable {α : Type}

/-- Exchange of the cells `a` and `b` of `xs`, as in
`T t = a; a = b; b = t;` applied to `xs[a]` and `xs[b]`.
Both cells are read first, so the result is `none` when one of them is out
of bounds. -/
def swap (xs : List α) (a b : Nat) : Option (List α) :=
  match xs[a]?, xs[b]? with
  | some x, some y => some ((xs.set a y).set b x)
  | _, _ => none

/-- The scan `for (size_t j = l + 1; j < r; ++j)` of `partition`.
The first argument is the number of iterations that remain, `r - j`;
`i` is the boundary index and `j` the scan index. -/
def partitionLoop [LT α] [DecidableRel (fun (a b : α) => a < b)] (p : α) :
    Nat → List α → Nat → Nat → Option (List α × Nat)
  | 0, xs, i, _ => some (xs, i)
  | m + 1, xs, i, j =>
    match xs[j]? with
    | none => none
    | some xj =>
      if xj < p then
        match swap xs j i with
        | none => none
        | some xs1 => partitionLoop p m xs1 (i + 1) (j + 1)
      else
        partitionLoop p m xs i (j + 1)

/-- Partition of the sub-range `[l, r)` of `xs` around the pivot at local
index `k` (`numeric::impl::partition`).  Returns the array after the call and
the local index of the pivot. -/
def partition [LT α] [DecidableRel (fun (a b : α) => a < b)]
    (xs : List α) (k l r : Nat) : Option (List α × Nat) :=
  let k := k + l
  match swap xs l k with
  | none => none
  | some xs1 =>
    match xs1[l]? with
    | none => none
    | some p =>
      match partitionLoop p (r - (l + 1)) xs1 (l + 1) (l + 1) with
      | none => none
      | some (xs2, i) =>
        match swap xs2 l (i - 1) with
        | none => none
        | some xs3 => some (xs3, i - 1 - l)

/-- Body of the recursive `select(xs, l, r, i)` with an explicit bound on the
recursion depth.  The result is the selected value, the array after the call
and the counter of the random generator; `none` stands for an out-of-bounds
access, for `std::rand() % 0`, or for an exhausted depth bound. -/
def selectFuel [LT α] [DecidableRel (fun (a b : α) => a < b)] (rand : Nat → Nat) :
    Nat → List α → Nat → Nat → Nat → Nat → Option (α × List α × Nat)
  | 0, _, _, _, _, _ => none
  | fuel + 1, xs, l, r, i, t =>
    let n := r - l
    if n = 1 then
      match xs[l]? with
      | none => none
      | some v => some (v, xs, t)
    else if n = 0 then none
    else
      match partition xs (rand t % n) l r with
      | none => none
      | some (xs1, j) =>
        if j = i then
          match xs1[l + j]? with
          | none => none
          | some v => some (v, xs1, t + 1)
        else if j > i then
          selectFuel rand fuel xs1 l (l + j) i (t + 1)
        else
          selectFuel rand fuel xs1 (l + (j + 1)) r (i - (j + 1)) (t + 1)

/-- The helper `select(xs, l, r, i)`: the `i`-th order statistic of the
sub-range `[l, r)`.  The depth bound `r - l` is never exhausted
(`selectFuel_spec`). -/
def select [LT α] [DecidableRel (fun (a b : α) => a < b)] (rand : Nat → Nat)
    (xs : List α) (l r i t : Nat) : Option (α × List α × Nat) :=
  selectFuel rand (r - l) xs l r i t

/-- The overload `select(xs, n, i)`, which is `select(xs, 0, n, i)`. -/
def select3 [LT α] [DecidableRel (fun (a b : α) => a < b)] (rand : Nat → Nat)
    (xs : List α) (n i t : Nat) : Option (α × List α × Nat) :=
  select rand xs 0 n i t

end impl

/-- The function `numeric::median`.  `toDouble` is the conversion of the element
type to `double`; the sum `x + y` is taken in the element type. -/
def median {α : Type} [LT α] [DecidableRel (fun (a b : α) => a < b)] [Add α]
    (toDouble : α → ℚ) (rand : Nat → Nat) (xs : List α) (n t : Nat) :
    Option (ℚ × List α × Nat) :=
  if n % 2 = 0 then
    match impl.select3 rand xs n (n / 2 - 1) t with
    | none => none
    | some (x, xs1, t1) =>
      match impl.select3 rand xs1 n (n / 2) t1 with
      | none => none
      | some (y, xs2, t2) => some (toDouble (x + y) / 2, xs2, t2)
  else
    match impl.select3 rand xs n (n / 2) t with
    | none => none
    | some (x, xs1, t1) => some (toDouble x, xs1, t1)

/-- The loop of `mad` that fills `deviations[0 .. c)` with
`std::abs(xs[i] - m)`. -/
def deviations {α : Type} (toDouble : α → ℚ) (m : ℚ) (xs : List α) :
    Nat → Option (List ℚ)
  | 0 => some []
  | c + 1 =>
    match deviations toDouble m xs c, xs[c]? with
    | some ds, some x => some (ds ++ [|toDouble x - m|])
    | _, _ => none

/-- The function `numeric::mad`.  Returns the median absolute deviation, the
caller's array after the call and the counter of the random generator. -/
def mad {α : Type} [LT α] [DecidableRel (fun (a b : α) => a < b)] [Add α]
    (toDouble : α → ℚ) (rand : Nat → Nat) (xs : List α) (n t : Nat) :
    Option (ℚ × List α × Nat) :=
  match median toDouble rand xs n t with
  | none => none
  | some (m, xs1, t1) =>
    match deviations toDouble m xs1 n with
    | none => none
    | some ds =>
      match median id rand ds n t1 with
      | none => none
      | some (y, _, t2) => some (y, xs1, t2)

/-- The implicit conversion of an `int` to a `double`, which is exact. -/
def intToDouble (z : ℤ) : ℚ := (z : ℚ)

/-- Ascending sorted copy of a list. -/
def sortedCopy {α : Type} [LinearOrder α] (xs : List α) : List α :=
  xs.insertionSort (fun a b => a ≤ b)

/-- The elements of `xs` at the indices in `[l, r)`. -/
def slice {α : Type} (xs : List α) (l r : Nat) : List α :=
  (xs.drop l).take (r - l)

/-- The middle of the ascending sorted copy `s` of `xs`, with `n` the length
of `xs`: `s[n/2]` when `n` is odd, and `(s[n/2 - 1] + s[n/2]) / 2` when `n` is
even, the sum being taken in the element type.  This is the reference value
that `median` is compared with; it does not come from the code. -/
def sortedMedian {α : Type} [LinearOrder α] [Add α] (toDouble : α → ℚ) (xs : List α) :
    Option ℚ :=
  if xs.length % 2 = 0 then
    match (sortedCopy xs)[xs.length / 2 - 1]?, (sortedCopy xs)[xs.length / 2]? with
    | some a, some b => some (toDouble (a + b) / 2)
    | _, _ => none
  else
    match (sortedCopy xs)[xs.length / 2]? with
    | some a => some (toDouble a)
    | none => none

/-! ### The reductions of `pearson_problem.cpp`

The element type is `α` and `double` is a field `K`, with the conversions
`toDouble : α → K` and `ofDouble : K → α` that C++ inserts implicitly (for an
integer element type `ofDouble` truncates); `sqrt` is `std::sqrt`. -/

/-- Outcomes of the reductions other than a value: the exception
`std::invalid_argument`, and a read outside the array. -/
inductive Error
  | invalidArgument
  | outOfBounds
  deriving DecidableEq

/-- The loop `T s = 0; for (i < n) s += xs[i];` of `mean`, run for `c`
iterations. -/
def meanLoop {α : Type} [Zero α] [Add α] (xs : List α) : Nat → Except Error α
  | 0 => Except.ok 0
  | c + 1 =>
    match meanLoop xs c with
    | Except.error e => Except.error e
    | Except.ok s =>
      match xs[c]? with
      | none => Except.error Error.outOfBounds
      | some x => Except.ok (s + x)

/-- The function `numeric::mean`: `s / (double)n`. -/
def mean {α K : Type} [Zero α] [Add α] [Field K] (toDouble : α → K)
    (xs : List α) (n : Nat) : Except Error K :=
  match meanLoop xs n with
  | Except.error e => Except.error e
  | Except.ok s => Except.ok (toDouble s / (n : K))

/-- The loop `T v = 0; for (i < n) { T d = xs[i] - mean; v += d*d; }` of
`variance`, run for `c` iterations.  The difference is taken in `double` and
converted to the element type. -/
def varianceLoop {α K : Type} [Zero α] [Add α] [Mul α] [Field K] (toDouble : α → K)
    (ofDouble : K → α) (m : K) (xs : List α) : Nat → Except Error α
  | 0 => Except.ok 0
  | c + 1 =>
    match varianceLoop toDouble ofDouble m xs c with
    | Except.error e => Except.error e
    | Except.ok v =>
      match xs[c]? with
      | none => Except.error Error.outOfBounds
      | some x => Except.ok (v + ofDouble (toDouble x - m) * ofDouble (toDouble x - m))

/-- The function `numeric::variance`: `v / (double)(n - 1)`, where `n - 1` is
taken in `size_t` (64 bits) and so wraps around for `n = 0`. -/
def variance {α K : Type} [Zero α] [Add α] [Mul α] [Field K] (toDouble : α → K)
    (ofDouble : K → α) (xs : List α) (n : Nat) (m : K) : Except Error K :=
  match varianceLoop toDouble ofDouble m xs n with
  | Except.error e => Except.error e
  | Except.ok v => Except.ok (toDouble v / (((n + 2 ^ 64 - 1) % 2 ^ 64 : Nat) : K))

/-- The loop `double dotp = 0; for (i < n_x) dotp += xs[i] * ys[i];` of
`correlation`, run for `c` iterations.  The product is taken in the element
type. -/
def dotLoop {α K : Type} [Mul α] [Field K] (toDouble : α → K) (xs ys : List α) :
    Nat → Except Error K
  | 0 => Except.ok 0
  | c + 1 =>
    match dotLoop toDouble xs ys c with
    | Except.error e => Except.error e
    | Except.ok d =>
      match xs[c]?, ys[c]? with
      | some x, some y => Except.ok (d + toDouble (x * y))
      | _, _ => Except.error Error.outOfBounds

/-- The function `numeric::correlation`. -/
def correlation {α K : Type} [Zero α] [Add α] [Mul α] [Field K] (toDouble : α → K)
    (ofDouble : K → α) (sqrt : K → K) (xs : List α) (n_x : Nat) (ys : List α) (n_y : Nat) :
    Except Error K :=
  if n_x ≠ n_y then Except.error Error.invalidArgument
  else
    match mean toDouble xs n_x with
    | Except.error e => Except.error e
    | Except.ok mean_x =>
      match variance toDouble ofDouble xs n_x mean_x with
      | Except.error e => Except.error e
      | Except.ok var_x =>
        match mean toDouble ys n_y with
        | Except.error e => Except.error e
        | Except.ok mean_y =>
          match variance toDouble ofDouble ys n_y mean_y with
          | Except.error e => Except.error e
          | Except.ok var_y =>
            match dotLoop toDouble xs ys n_x with
            | Except.error e => Except.error e
            | Except.ok dotp =>
              Except.ok ((dotp - (n_x : K) * mean_x * mean_y) /
                (((n_x : K) - 1) * sqrt var_x * sqrt var_y))

/-! ### One activation of `select`, and the accesses of `partition` -/

namespace impl

/-- What one activation of `select(xs, l, r, i)` does: it returns a value, or
it makes a recursive call `select(xs, l, r, i)` on new arguments.  Both carry
the array and the counter of the random generator. -/
inductive SelectStep (α : Type)
  | ret (v : α) (xs : List α) (t : Nat)
  | call (xs : List α) (l r i t : Nat)

/-- The body of `select(xs, l, r, i)` up to its recursive call: the same
branches as `selectFuel`, with the recursive call left as data. -/
def selectBody {α : Type} [LT α] [DecidableRel (fun (a b : α) => a < b)] (rand : Nat → Nat)
    (xs : List α) (l r i t : Nat) : Option (SelectStep α) :=
  let n := r - l
  if n = 1 then
    match xs[l]? with
    | none => none
    | some v => some (SelectStep.ret v xs t)
  else if n = 0 then none
  else
    match partition xs (rand t % n) l r with
    | none => none
    | some (xs1, j) =>
      if j = i then
        match xs1[l + j]? with
        | none => none
        | some v => some (SelectStep.ret v xs1 (t + 1))
      else if j > i then
        some (SelectStep.call xs1 l (l + j) i (t + 1))
      else
        some (SelectStep.call xs1 (l + (j + 1)) r (i - (j + 1)) (t + 1))

/-- The scan of `partition` as in `partitionLoop`, which also returns the
indices of the cells it reads or writes, in order: `j` for the test
`xs[j] < p`, then `j` and `i` for the exchange. -/
def partitionLoopLog {α : Type} [LT α] [DecidableRel (fun (a b : α) => a < b)] (p : α) :
    Nat → List α → Nat → Nat → Option ((List α × Nat) × List Nat)
  | 0, xs, i, _ => some ((xs, i), [])
  | m + 1, xs, i, j =>
    match xs[j]? with
    | none => none
    | some xj =>
      if xj < p then
        match swap xs j i with
        | none => none
        | some xs1 =>
          match partitionLoopLog p m xs1 (i + 1) (j + 1) with
          | none => none
          | some (res, log) => some (res, j :: j :: i :: log)
      else
        match partitionLoopLog p m xs i (j + 1) with
        | none => none
        | some (res, log) => some (res, j :: log)

/-- The function `partition` as above, which also returns the indices of the
cells it reads or writes, in order: `l` and `k` for the first exchange, `l`
for the pivot, the accesses of the scan, `l` and `i - 1` for the last
exchange. -/
def partitionLog {α : Type} [LT α] [DecidableRel (fun (a b : α) => a < b)]
    (xs : List α) (k l r : Nat) : Option ((List α × Nat) × List Nat) :=
  let k := k + l
  match swap xs l k with
  | none => none
  | some xs1 =>
    match xs1[l]? with
    | none => none
    | some p =>
      match partitionLoopLog p (r - (l + 1)) xs1 (l + 1) (l + 1) with
      | none => none
      | some ((xs2, i), log) =>
        match swap xs2 l (i - 1) with
        | none => none
        | some xs3 => some ((xs3, i - 1 - l), [l, k, l] ++ log ++ [l, i - 1])

end impl

/-- The implicit conversion of a `double` to an `int`, which discards the
fractional part (rounds toward zero). -/
def doubleToInt (q : ℚ) : ℤ := if 0 ≤ q then ⌊q⌋ else ⌈q⌉

end numeric

/-! ## Exchanges -/

namespace numeric

namespace impl

variable {α : Type}

theorem cons_set_perm (x y : α) : ∀ (tl : List α) (n : Nat), tl[n]? = some y →
    (y :: tl.set n x).Perm (x :: tl)
  | [], n, h => by simp at h
  | z :: tl, 0, h => by
    simp at h
    subst h
    simpa using List.Perm.swap x z tl
  | z :: tl, n + 1, h => by
    simp at h
    have ih := cons_set_perm x y tl n h
    simp only [List.set_cons_succ]
    exact (List.Perm.swap z y _).trans ((ih.cons z).trans (List.Perm.swap x z tl))

theorem set_set_perm (x y : α) : ∀ (xs : List α) (a b : Nat),
    xs[a]? = some x → xs[b]? = some y → ((xs.set a y).set b x).Perm xs
  | [], a, _, h, _ => by simp at h
  | z :: tl, 0, 0, ha, hb => by
    simp at ha hb
    simp [ha]
  | z :: tl, 0, b + 1, ha, hb => by
    simp at ha hb
    subst ha
    simpa using cons_set_perm z y tl b hb
  | z :: tl, a + 1, 0, ha, hb => by
    simp at ha hb
    subst hb
    simpa using cons_set_perm z x tl a ha
  | z :: tl, a + 1, b + 1, ha, hb => by
    simp at ha hb
    simpa using set_set_perm x y tl a b ha hb

/-- An exchange of two cells inside the array succeeds; it keeps the length,
permutes the array, and moves exactly the two cells. -/
theorem swap_spec (xs : List α) (a b : Nat) (ha : a < xs.length) (hb : b < xs.length) :
    ∃ xs1, swap xs a b = some xs1 ∧ xs1.length = xs.length ∧ xs1.Perm xs ∧
      ∀ c, xs1[c]? = if c = b then xs[a]? else if c = a then xs[b]? else xs[c]? := by
  obtain ⟨x, hx⟩ : ∃ x, xs[a]? = some x := ⟨xs[a], List.getElem?_eq_getElem ha⟩
  obtain ⟨y, hy⟩ : ∃ y, xs[b]? = some y := ⟨xs[b], List.getElem?_eq_getElem hb⟩
  refine ⟨(xs.set a y).set b x, by simp [swap, hx, hy], by simp, set_set_perm x y xs a b hx hy, ?_⟩
  intro c
  by_cases hcb : c = b
  · subst hcb
    simp [hx, hb]
  · by_cases hca : c = a
    · subst hca
      simp [hcb, Ne.symm hcb, hy, ha]
    · simp [hcb, hca, Ne.symm hcb, Ne.symm hca]

end impl

end numeric

/-! ## The partition scan -/

namespace numeric

namespace impl

variable {α : Type}

/-- Invariant of the scan: with `p` kept in cell `l`, the cells `(l, i)` hold
values below `p` and the cells `[i, j)` hold values not below `p`.  The scan
runs to completion and establishes the invariant for `j = r`. -/
theorem partitionLoop_spec [LinearOrder α] (p : α) (l r : Nat) :
    ∀ (m : Nat) (xs : List α) (i j : Nat),
      l < i → i ≤ j → j + m = r → r ≤ xs.length →
      (∀ a, l < a → a < i → ∀ v, xs[a]? = some v → v < p) →
      (∀ a, i ≤ a → a < j → ∀ v, xs[a]? = some v → p ≤ v) →
      ∃ xs1 i1, partitionLoop p m xs i j = some (xs1, i1) ∧
        xs1.length = xs.length ∧ xs1.Perm xs ∧
        (∀ a, a ≤ l ∨ r ≤ a → xs1[a]? = xs[a]?) ∧
        l < i1 ∧ i1 ≤ r ∧
        (∀ a, l < a → a < i1 → ∀ v, xs1[a]? = some v → v < p) ∧
        (∀ a, i1 ≤ a → a < r → ∀ v, xs1[a]? = some v → p ≤ v) := by
  intro m
  induction m with
  | zero =>
    intro xs i j hli hij hjm hr hlt hge
    have hjr : j = r := by omega
    subst hjr
    exact ⟨xs, i, rfl, rfl, List.Perm.refl _, fun _ _ => rfl, hli, hij, hlt, hge⟩
  | succ m ih =>
    intro xs i j hli hij hjm hr hlt hge
    have hj : j < xs.length := by omega
    have hxj : xs[j]? = some xs[j] := List.getElem?_eq_getElem hj
    by_cases hc : xs[j] < p
    · obtain ⟨xs1, hsw, hlen, hperm, hget⟩ := swap_spec xs j i hj (by omega)
      have hlt1 : ∀ a, l < a → a < i + 1 → ∀ v, xs1[a]? = some v → v < p := by
        intro a hla hai v hv
        rw [hget a] at hv
        by_cases hai2 : a = i
        · subst hai2
          simp [hxj] at hv
          exact hv ▸ hc
        · have haj : a ≠ j := by omega
          simp [hai2, haj] at hv
          exact hlt a hla (by omega) v hv
      have hge1 : ∀ a, i + 1 ≤ a → a < j + 1 → ∀ v, xs1[a]? = some v → p ≤ v := by
        intro a hia haj v hv
        rw [hget a] at hv
        have hai2 : a ≠ i := by omega
        by_cases haj2 : a = j
        · subst haj2
          simp [hai2] at hv
          exact hge i (le_refl _) (by omega) v hv
        · simp [hai2, haj2] at hv
          exact hge a (by omega) (by omega) v hv
      obtain ⟨xs2, i2, hrun, hlen2, hperm2, hfr2, h1, h2, h3, h4⟩ :=
        ih xs1 (i + 1) (j + 1) (by omega) (by omega) (by omega) (by omega) hlt1 hge1
      refine ⟨xs2, i2, ?_, by omega, hperm2.trans hperm, ?_, h1, h2, h3, h4⟩
      · simp only [partitionLoop, hxj, hc, if_true, hsw]
        exact hrun
      · intro a ha
        rw [hfr2 a ha, hget a]
        have hai2 : a ≠ i := by omega
        have haj2 : a ≠ j := by omega
        simp [hai2, haj2]
    · have hge1 : ∀ a, i ≤ a → a < j + 1 → ∀ v, xs[a]? = some v → p ≤ v := by
        intro a hia haj v hv
        by_cases haj2 : a = j
        · subst haj2
          rw [hxj] at hv
          cases hv
          exact not_lt.mp hc
        · exact hge a hia (by omega) v hv
      obtain ⟨xs2, i2, hrun, hlen2, hperm2, hfr2, h1, h2, h3, h4⟩ :=
        ih xs i (j + 1) hli (by omega) (by omega) hr hlt hge1
      refine ⟨xs2, i2, ?_, hlen2, hperm2, hfr2, h1, h2, h3, h4⟩
      simp only [partitionLoop, hxj, hc, if_false]
      exact hrun

end impl

end numeric

/-! ## The partition -/

namespace numeric

namespace impl

variable {α : Type}

/-- Full specification of `partition` on a non-empty sub-range inside the
array: the call succeeds, the array is permuted inside `[l, r)` only, the
pivot value `p` ends at the returned local index `j`, the cells before it
hold values below `p` and the cells after it hold values not below `p`. -/
theorem partition_spec [LinearOrder α] (xs : List α) (k l r : Nat)
    (hlr : l < r) (hr : r ≤ xs.length) (hk : k < r - l) :
    ∃ xs3 j p, partition xs k l r = some (xs3, j) ∧ xs[l + k]? = some p ∧
      xs3.length = xs.length ∧ xs3.Perm xs ∧
      (∀ a, a < l ∨ r ≤ a → xs3[a]? = xs[a]?) ∧
      j < r - l ∧ xs3[l + j]? = some p ∧
      (∀ a, l ≤ a → a < l + j → ∀ v, xs3[a]? = some v → v < p) ∧
      (∀ a, l + j < a → a < r → ∀ v, xs3[a]? = some v → p ≤ v) := by
  have hkl : k + l < xs.length := by omega
  obtain ⟨xs1, hsw1, hlen1, hperm1, hget1⟩ := swap_spec xs l (k + l) (by omega) hkl
  have hp : xs[k + l]? = some xs[k + l] := List.getElem?_eq_getElem hkl
  generalize xs[k + l] = p at hp
  have hp1 : xs1[l]? = some p := by
    rw [hget1 l]
    by_cases h : l = k + l
    · rw [if_pos h, h]; exact hp
    · rw [if_neg h, if_pos rfl]; exact hp
  obtain ⟨xs2, i, hrun, hlen2, hperm2, hfr2, hli, hir, hlt2, hge2⟩ :=
    partitionLoop_spec p l r (r - (l + 1)) xs1 (l + 1) (l + 1) (by omega) (le_refl _)
      (by omega) (by omega) (fun a h1 h2 => by omega) (fun a h1 h2 => by omega)
  have hp2 : xs2[l]? = some p := by rw [hfr2 l (Or.inl (le_refl _))]; exact hp1
  obtain ⟨xs3, hsw3, hlen3, hperm3, hget3⟩ :=
    swap_spec xs2 l (i - 1) (by omega) (by omega)
  refine ⟨xs3, i - 1 - l, p, ?_, ?_, by omega, (hperm3.trans hperm2).trans hperm1, ?_,
    by omega, ?_, ?_, ?_⟩
  · simp only [partition, hsw1, hp1, hrun, hsw3]
  · rw [Nat.add_comm]; exact hp
  · intro a ha
    have h1 : a ≠ l := by omega
    have h2 : a ≠ i - 1 := by omega
    have h3 : a ≠ k + l := by omega
    rw [hget3 a, if_neg h2, if_neg h1, hfr2 a (by omega), hget1 a, if_neg h3, if_neg h1]
  · have h : l + (i - 1 - l) = i - 1 := by omega
    rw [h, hget3 (i - 1), if_pos rfl]
    exact hp2
  · intro a hla haj v hv
    have h2 : a ≠ i - 1 := by omega
    rw [hget3 a, if_neg h2] at hv
    by_cases h1 : a = l
    · rw [if_pos h1] at hv
      exact hlt2 (i - 1) (by omega) (by omega) v hv
    · rw [if_neg h1] at hv
      exact hlt2 a (by omega) (by omega) v hv
  · intro a haj har v hv
    have h1 : a ≠ l := by omega
    have h2 : a ≠ i - 1 := by omega
    rw [hget3 a, if_neg h2, if_neg h1] at hv
    exact hge2 a (by omega) har v hv

end impl

end numeric

/-! ## Sub-ranges and sorted copies -/

namespace numeric

variable {α : Type}

theorem slice_getElem? (xs : List α) (l r a : Nat) :
    (slice xs l r)[a]? = if a < r - l then xs[l + a]? else none := by
  simp [slice, List.getElem?_take, List.getElem?_drop]

theorem slice_length (xs : List α) (l r : Nat) (hr : r ≤ xs.length) :
    (slice xs l r).length = r - l := by
  simp [slice]
  omega

/-- A sub-range splits at any of its cells. -/
theorem slice_split (xs : List α) (l m r : Nat) (p : α) (hlm : l ≤ m) (hmr : m < r)
    (hp : xs[m]? = some p) :
    slice xs l r = slice xs l m ++ p :: slice xs (m + 1) r := by
  have hm : m < xs.length := by
    by_contra h
    rw [List.getElem?_eq_none (by omega)] at hp
    cases hp
  apply List.ext_getElem?
  intro a
  rw [slice_getElem?]
  by_cases h1 : a < m - l
  · rw [List.getElem?_append_left (by rw [slice_length xs l m (by omega)]; exact h1),
      slice_getElem?, if_pos h1, if_pos (by omega)]
  · rw [List.getElem?_append_right (by rw [slice_length xs l m (by omega)]; omega),
      slice_length xs l m (by omega)]
    by_cases h2 : a = m - l
    · subst h2
      have h3 : l + (m - l) = m := by omega
      simp only [Nat.sub_self, List.getElem?_cons_zero, h3, hp]
      rw [if_pos (by omega)]
    · obtain ⟨b, hb⟩ : ∃ b, a - (m - l) = b + 1 := ⟨a - (m - l) - 1, by omega⟩
      rw [hb, List.getElem?_cons_succ, slice_getElem?]
      have h3 : m + 1 + b = l + a := by omega
      rw [h3]
      by_cases h4 : a < r - l
      · rw [if_pos h4, if_pos (by omega)]
      · rw [if_neg h4, if_neg (by omega)]

/-- The whole array is the sub-range `[0, length)`. -/
theorem slice_zero_length (xs : List α) : slice xs 0 xs.length = xs := by
  simp [slice]

/-- A permutation of the array that fixes every cell outside `[l, r)` permutes
the sub-range. -/
theorem slice_perm_of_frame (xs ys : List α) (l r : Nat) (hlr : l ≤ r) (hperm : ys.Perm xs)
    (hfr : ∀ a, a < l ∨ r ≤ a → ys[a]? = xs[a]?) :
    (slice ys l r).Perm (slice xs l r) := by
  have hdec : ∀ zs : List α, zs = zs.take l ++ (slice zs l r ++ zs.drop r) := by
    intro zs
    have h1 : zs.drop r = (zs.drop l).drop (r - l) := by
      rw [List.drop_drop]
      congr 1
      omega
    rw [h1, slice, List.take_append_drop, List.take_append_drop]
  have htake : ys.take l = xs.take l := by
    apply List.ext_getElem?
    intro a
    simp only [List.getElem?_take]
    by_cases h : a < l
    · rw [if_pos h, if_pos h]; exact hfr a (Or.inl h)
    · rw [if_neg h, if_neg h]
  have hdrop : ys.drop r = xs.drop r := by
    apply List.ext_getElem?
    intro a
    simp only [List.getElem?_drop]
    exact hfr (r + a) (Or.inr (by omega))
  have h := hperm
  rw [hdec ys, hdec xs, htake, hdrop] at h
  exact (List.perm_append_right_iff _).mp ((List.perm_append_left_iff _).mp h)

theorem sortedCopy_perm [LinearOrder α] (xs : List α) : (sortedCopy xs).Perm xs :=
  List.perm_insertionSort _ xs

theorem sortedCopy_sorted [LinearOrder α] (xs : List α) :
    (sortedCopy xs).Sorted (fun a b => a ≤ b) :=
  List.sorted_insertionSort _ xs

theorem sortedCopy_length [LinearOrder α] (xs : List α) :
    (sortedCopy xs).length = xs.length :=
  (sortedCopy_perm xs).length_eq

/-- Permutations of each other have the same sorted copy. -/
theorem sortedCopy_eq_of_perm [LinearOrder α] {xs ys : List α} (h : xs.Perm ys) :
    sortedCopy xs = sortedCopy ys :=
  List.eq_of_perm_of_sorted
    (((sortedCopy_perm xs).trans h).trans (sortedCopy_perm ys).symm)
    (sortedCopy_sorted xs) (sortedCopy_sorted ys)

/-- The sorted copy of a list that is partitioned around `p`. -/
theorem sortedCopy_partitioned [LinearOrder α] (A B : List α) (p : α)
    (hA : ∀ a ∈ A, a < p) (hB : ∀ b ∈ B, p ≤ b) :
    sortedCopy (A ++ p :: B) = sortedCopy A ++ p :: sortedCopy B := by
  apply List.eq_of_perm_of_sorted (r := fun a b => a ≤ b)
  · exact (sortedCopy_perm _).trans
      (((sortedCopy_perm A).symm).append (((sortedCopy_perm B).symm).cons p))
  · exact sortedCopy_sorted _
  · have hsA := sortedCopy_sorted A
    have hsB := sortedCopy_sorted B
    unfold List.Sorted at hsA hsB ⊢
    rw [List.pairwise_append]
    refine ⟨hsA, ?_, ?_⟩
    · rw [List.pairwise_cons]
      exact ⟨fun b hb => hB b ((sortedCopy_perm B).mem_iff.mp hb), hsB⟩
    · intro a ha b hb
      have ha1 : a < p := hA a ((sortedCopy_perm A).mem_iff.mp ha)
      rcases List.mem_cons.mp hb with h | h
      · rw [h]; exact le_of_lt ha1
      · exact le_trans (le_of_lt ha1) (hB b ((sortedCopy_perm B).mem_iff.mp h))

end numeric

/-! ## Selection -/

namespace numeric

variable {α : Type}

theorem slice_forall (xs : List α) (l r : Nat) (P : α → Prop)
    (h : ∀ a, l ≤ a → a < r → ∀ v, xs[a]? = some v → P v) :
    ∀ v ∈ slice xs l r, P v := by
  intro v hv
  obtain ⟨a, ha⟩ := List.mem_iff_getElem?.mp hv
  rw [slice_getElem?] at ha
  by_cases h1 : a < r - l
  · rw [if_pos h1] at ha
    exact h (l + a) (by omega) (by omega) v ha
  · rw [if_neg h1] at ha
    cases ha

/-- The sorted copy of a sub-range, read off the array that `partition`
leaves: the sorted cells before the pivot, the pivot, the sorted cells after
it. -/
theorem sortedCopy_slice_partitioned [LinearOrder α] (xs xs1 : List α) (l r j : Nat) (p : α)
    (hj : j < r - l) (hperm : xs1.Perm xs)
    (hfr : ∀ a, a < l ∨ r ≤ a → xs1[a]? = xs[a]?)
    (hp : xs1[l + j]? = some p)
    (hlt : ∀ a, l ≤ a → a < l + j → ∀ v, xs1[a]? = some v → v < p)
    (hge : ∀ a, l + j < a → a < r → ∀ v, xs1[a]? = some v → p ≤ v) :
    sortedCopy (slice xs l r) =
      sortedCopy (slice xs1 l (l + j)) ++ p :: sortedCopy (slice xs1 (l + j + 1) r) := by
  rw [← sortedCopy_eq_of_perm (slice_perm_of_frame xs xs1 l r (by omega) hperm hfr),
    slice_split xs1 l (l + j) r p (by omega) (by omega) hp]
  exact sortedCopy_partitioned _ _ p (slice_forall xs1 l (l + j) _ hlt)
    (slice_forall xs1 (l + j + 1) r _ (fun a h1 h2 => hge a (by omega) h2))

end numeric

namespace numeric

namespace impl

variable {α : Type}

/-- Full specification of the recursive selection on a non-empty sub-range
inside the array, for a depth bound of at least the length of the sub-range:
the call returns, the array is permuted inside `[l, r)` only, the value is the
one at index `i` of the sorted copy of the sub-range, it is left in cell
`l + i` with no larger value before it and no smaller value after it, and at
most `r - l - 1` random numbers are drawn. -/
theorem selectFuel_spec [LinearOrder α] (rand : Nat → Nat) :
    ∀ (fuel : Nat) (xs : List α) (l r i t : Nat),
      l < r → r ≤ xs.length → i < r - l → r - l ≤ fuel →
      ∃ v xs2 t2, selectFuel rand fuel xs l r i t = some (v, xs2, t2) ∧
        xs2.length = xs.length ∧ xs2.Perm xs ∧
        (∀ a, a < l ∨ r ≤ a → xs2[a]? = xs[a]?) ∧
        (sortedCopy (slice xs l r))[i]? = some v ∧
        xs2[l + i]? = some v ∧
        (∀ a, l ≤ a → a < l + i → ∀ w, xs2[a]? = some w → w ≤ v) ∧
        (∀ a, l + i < a → a < r → ∀ w, xs2[a]? = some w → v ≤ w) ∧
        t ≤ t2 ∧ t2 + 1 + l ≤ t + r := by
  intro fuel
  induction fuel with
  | zero => intro xs l r i t h1 h2 h3 h4; omega
  | succ fuel ih =>
    intro xs l r i t hlr hr hi hfuel
    by_cases hn : r - l = 1
    · have hl : l < xs.length := by omega
      have hxl : xs[l]? = some xs[l] := List.getElem?_eq_getElem hl
      have hi0 : i = 0 := by omega
      subst hi0
      refine ⟨xs[l], xs, t, ?_, rfl, List.Perm.refl _, fun _ _ => rfl, ?_, hxl,
        fun a h1 h2 => by omega, fun a h1 h2 => by omega, le_refl _, by omega⟩
      · simp only [selectFuel, hn, if_true, hxl]
      · have hs : slice xs l r = [xs[l]] := by
          apply List.ext_getElem?
          intro a
          rw [slice_getElem?, hn]
          cases a with
          | zero => simp [hxl]
          | succ a => simp
        rw [hs]
        simp [sortedCopy]
    · have hn0 : ¬ r - l = 0 := by omega
      have hk : rand t % (r - l) < r - l := Nat.mod_lt _ (by omega)
      obtain ⟨xs1, j, p, hpart, -, hlen1, hperm1, hfr1, hj, hp, hlt, hge⟩ :=
        partition_spec xs (rand t % (r - l)) l r hlr hr hk
      have hsorted := sortedCopy_slice_partitioned xs xs1 l r j p hj hperm1 hfr1 hp hlt hge
      have hlenA : (sortedCopy (slice xs1 l (l + j))).length = j := by
        rw [sortedCopy_length, slice_length xs1 l (l + j) (by omega)]
        omega
      by_cases hji : j = i
      · subst hji
        refine ⟨p, xs1, t + 1, ?_, hlen1, hperm1, hfr1, ?_, hp,
          fun a h1 h2 w hw => le_of_lt (hlt a h1 h2 w hw), hge, by omega, by omega⟩
        · simp only [selectFuel, hn, hn0, if_false, hpart, if_true, hp]
        · rw [hsorted, List.getElem?_append_right (by omega), hlenA]
          simp
      · by_cases hgt : j > i
        · obtain ⟨v, xs2, t2, hrun, hlen2, hperm2, hfr2, hval, hcell, hbefore, hafter, ht1, ht2⟩ :=
            ih xs1 l (l + j) i (t + 1) (by omega) (by omega) (by omega) (by omega)
          have hvp : v < p :=
            slice_forall xs1 l (l + j) _ hlt v
              ((sortedCopy_perm _).mem_iff.mp (List.getElem?_mem hval))
          refine ⟨v, xs2, t2, ?_, by omega, hperm2.trans hperm1, ?_, ?_, hcell, hbefore, ?_,
            by omega, by omega⟩
          · simp only [selectFuel, hn, hn0, if_false, hpart, hji, hgt, if_true]
            exact hrun
          · intro a ha
            rw [hfr2 a (by omega), hfr1 a ha]
          · rw [hsorted, List.getElem?_append_left (by omega)]
            exact hval
          · intro a h1 h2 w hw
            by_cases h3 : a < l + j
            · exact hafter a h1 h3 w hw
            · rw [hfr2 a (Or.inr (by omega))] at hw
              by_cases h4 : a = l + j
              · rw [h4, hp] at hw
                cases hw
                exact le_of_lt hvp
              · exact le_trans (le_of_lt hvp) (hge a (by omega) h2 w hw)
        · obtain ⟨v, xs2, t2, hrun, hlen2, hperm2, hfr2, hval, hcell, hbefore, hafter, ht1, ht2⟩ :=
            ih xs1 (l + (j + 1)) r (i - (j + 1)) (t + 1) (by omega) (by omega) (by omega)
              (by omega)
          have hpv : p ≤ v :=
            slice_forall xs1 (l + j + 1) r (fun w => p ≤ w)
              (fun a h1 h2 => hge a (by omega) h2) v
              ((sortedCopy_perm _).mem_iff.mp (List.getElem?_mem hval))
          have hidx : l + (j + 1) + (i - (j + 1)) = l + i := by omega
          rw [hidx] at hcell hbefore hafter
          refine ⟨v, xs2, t2, ?_, by omega, hperm2.trans hperm1, ?_, ?_, hcell, ?_, hafter,
            by omega, by omega⟩
          · simp only [selectFuel, hn, hn0, if_false, hpart, hji, hgt]
            exact hrun
          · intro a ha
            rw [hfr2 a (by omega), hfr1 a ha]
          · rw [hsorted, List.getElem?_append_right (by omega), hlenA]
            obtain ⟨b, hb⟩ : ∃ b, i - j = b + 1 := ⟨i - j - 1, by omega⟩
            have hb2 : i - (j + 1) = b := by omega
            rw [hb, List.getElem?_cons_succ, ← hb2]
            exact hval
          · intro a h1 h2 w hw
            by_cases h3 : l + (j + 1) ≤ a
            · exact hbefore a h3 h2 w hw
            · rw [hfr2 a (Or.inl (by omega))] at hw
              by_cases h4 : a = l + j
              · rw [h4, hp] at hw
                cases hw
                exact hpv
              · exact le_trans (le_of_lt (hlt a h1 (by omega) w hw)) hpv

/-- Specification of `select(xs, l, r, i)`: `selectFuel_spec` at the depth
bound `r - l` that `select` supplies. -/
theorem select_spec [LinearOrder α] (rand : Nat → Nat) (xs : List α) (l r i t : Nat)
    (hlr : l < r) (hr : r ≤ xs.length) (hi : i < r - l) :
    ∃ v xs2 t2, select rand xs l r i t = some (v, xs2, t2) ∧
      xs2.length = xs.length ∧ xs2.Perm xs ∧
      (∀ a, a < l ∨ r ≤ a → xs2[a]? = xs[a]?) ∧
      (sortedCopy (slice xs l r))[i]? = some v ∧
      xs2[l + i]? = some v ∧
      (∀ a, l ≤ a → a < l + i → ∀ w, xs2[a]? = some w → w ≤ v) ∧
      (∀ a, l + i < a → a < r → ∀ w, xs2[a]? = some w → v ≤ w) ∧
      t ≤ t2 ∧ t2 + 1 + l ≤ t + r :=
  selectFuel_spec rand (r - l) xs l r i t hlr hr hi (le_refl _)

/-- Specification of the overload `select(xs, n, i)` on an array of length
`n`. -/
theorem select3_spec [LinearOrder α] (rand : Nat → Nat) (xs : List α) (n i t : Nat)
    (hn : xs.length = n) (hi : i < n) :
    ∃ v xs2 t2, select3 rand xs n i t = some (v, xs2, t2) ∧
      xs2.length = xs.length ∧ xs2.Perm xs ∧
      (sortedCopy xs)[i]? = some v ∧ t ≤ t2 := by
  obtain ⟨v, xs2, t2, hrun, hlen, hperm, -, hval, -, -, -, ht, -⟩ :=
    select_spec rand xs 0 n i t (by omega) (by omega) (by omega)
  rw [← hn, slice_zero_length] at hval
  exact ⟨v, xs2, t2, hrun, hlen, hperm, hval, ht⟩

end impl

/-! ## Claims on `partition` and `select` -/

/-- Claim C1. For every array `xs` of length `n`, every rank `i < n` (so that
`n ≥ 1`) and every stream of random pivot choices, `select(xs, n, i)` returns
the value at index `i` of the ascending sorted copy of `xs`. -/
theorem select_returns_order_statistic {α : Type} [LinearOrder α] (rand : Nat → Nat)
    (xs : List α) (n i t : Nat) (hn : xs.length = n) (hi : i < n) :
    ∃ v xs2 t2, impl.select3 rand xs n i t = some (v, xs2, t2) ∧
      (sortedCopy xs)[i]? = some v := by
  obtain ⟨v, xs2, t2, hrun, -, -, hval, -⟩ := impl.select3_spec rand xs n i t hn hi
  exact ⟨v, xs2, t2, hrun, hval⟩

/-- Witness of claim C1 on the array `6, 1, 2, 5, 9` of the unit test, at the
middle rank. -/
theorem select_returns_order_statistic_witness :
    ([6, 1, 2, 5, 9] : List ℤ).length = 5 ∧ 2 < 5 ∧
    ∃ v xs2 t2, impl.select3 (fun t => 7 * t + 3) ([6, 1, 2, 5, 9] : List ℤ) 5 2 0
        = some (v, xs2, t2) ∧
      (sortedCopy ([6, 1, 2, 5, 9] : List ℤ))[2]? = some v :=
  ⟨by decide, by decide,
    select_returns_order_statistic (fun t => 7 * t + 3) [6, 1, 2, 5, 9] 5 2 0
      (by decide) (by decide)⟩

/-- Claim C4. For bounds `0 ≤ l < r ≤ length` and a local pivot index
`k < r - l`, `partition(xs, k, l, r)` returns some `j`; afterwards cell `l + j`
holds the original value of cell `l + k`, every cell in `[l, l + j)` holds a
value strictly less than it and every cell in `[l + j + 1, r)` holds a value
greater than or equal to it. -/
theorem partition_postcondition {α : Type} [LinearOrder α] (xs : List α) (k l r : Nat)
    (hlr : l < r) (hr : r ≤ xs.length) (hk : k < r - l) :
    ∃ xs3 j p, impl.partition xs k l r = some (xs3, j) ∧
      xs[l + k]? = some p ∧ xs3[l + j]? = some p ∧
      (∀ a, l ≤ a → a < l + j → ∃ v, xs3[a]? = some v ∧ v < p) ∧
      (∀ a, l + j + 1 ≤ a → a < r → ∃ v, xs3[a]? = some v ∧ p ≤ v) := by
  obtain ⟨xs3, j, p, hrun, hpiv, hlen, -, -, hj, hp, hlt, hge⟩ :=
    impl.partition_spec xs k l r hlr hr hk
  refine ⟨xs3, j, p, hrun, hpiv, hp, ?_, ?_⟩
  · intro a h1 h2
    have ha : a < xs3.length := by omega
    exact ⟨xs3[a], List.getElem?_eq_getElem ha,
      hlt a h1 h2 _ (List.getElem?_eq_getElem ha)⟩
  · intro a h1 h2
    have ha : a < xs3.length := by omega
    exact ⟨xs3[a], List.getElem?_eq_getElem ha,
      hge a (by omega) h2 _ (List.getElem?_eq_getElem ha)⟩

/-- Witness of claim C4 on an array with repeated values, partitioned inside
the sub-range `[1, 5)` around a repeated value. -/
theorem partition_postcondition_witness :
    1 < 5 ∧ 5 ≤ ([7, 3, 2, 3, 1, 0] : List ℤ).length ∧ 2 < 5 - 1 ∧
    ∃ xs3 j p, impl.partition ([7, 3, 2, 3, 1, 0] : List ℤ) 2 1 5 = some (xs3, j) ∧
      ([7, 3, 2, 3, 1, 0] : List ℤ)[1 + 2]? = some p ∧ xs3[1 + j]? = some p ∧
      (∀ a, 1 ≤ a → a < 1 + j → ∃ v, xs3[a]? = some v ∧ v < p) ∧
      (∀ a, 1 + j + 1 ≤ a → a < 5 → ∃ v, xs3[a]? = some v ∧ p ≤ v) :=
  ⟨by decide, by decide, by decide,
    partition_postcondition [7, 3, 2, 3, 1, 0] 2 1 5 (by decide) (by decide) (by decide)⟩

/-- Claim C5. For bounds `0 ≤ l < r ≤ length` and a local pivot index
`k < r - l`, the value `j` returned by `partition(xs, k, l, r)` is the number
of elements of the original sub-range `[l, r)` that are strictly less than
the pivot value `xs[l + k]`; equivalently, the pivot value stands at index `j`
of the sorted sub-range and every earlier value of the sorted sub-range is
strictly smaller (so `j` is the first position of a repeated value). -/
theorem partition_returns_rank {α : Type} [LinearOrder α] (xs : List α) (k l r : Nat)
    (hlr : l < r) (hr : r ≤ xs.length) (hk : k < r - l) :
    ∃ xs3 j p, impl.partition xs k l r = some (xs3, j) ∧ xs[l + k]? = some p ∧
      j = (slice xs l r).countP (fun v => decide (v < p)) ∧
      (sortedCopy (slice xs l r))[j]? = some p ∧
      (∀ a, a < j → ∃ v, (sortedCopy (slice xs l r))[a]? = some v ∧ v < p) := by
  obtain ⟨xs3, j, p, hrun, hpiv, hlen, hperm, hfr, hj, hp, hlt, hge⟩ :=
    impl.partition_spec xs k l r hlr hr hk
  have hA := slice_forall xs3 l (l + j) _ hlt
  have hB := slice_forall xs3 (l + j + 1) r (fun w => p ≤ w)
    (fun a h1 h2 => hge a (by omega) h2)
  have hsorted := sortedCopy_slice_partitioned xs xs3 l r j p hj hperm hfr hp hlt hge
  have hlenA : (sortedCopy (slice xs3 l (l + j))).length = j := by
    rw [sortedCopy_length, slice_length xs3 l (l + j) (by omega)]
    omega
  refine ⟨xs3, j, p, hrun, hpiv, ?_, ?_, ?_⟩
  · rw [← (slice_perm_of_frame xs xs3 l r (by omega) hperm hfr).countP_eq,
      slice_split xs3 l (l + j) r p (by omega) (by omega) hp, List.countP_append,
      List.countP_cons]
    have h1 : (slice xs3 l (l + j)).countP (fun v => decide (v < p))
        = (slice xs3 l (l + j)).length := by
      rw [List.countP_eq_length]
      intro v hv
      simpa using hA v hv
    have h2 : (slice xs3 (l + j + 1) r).countP (fun v => decide (v < p)) = 0 := by
      rw [List.countP_eq_zero]
      intro v hv
      simpa using hB v hv
    rw [h1, h2, slice_length xs3 l (l + j) (by omega)]
    simp
  · rw [hsorted, List.getElem?_append_right (by omega), hlenA]
    simp
  · intro a ha
    have ha2 : a < (sortedCopy (slice xs3 l (l + j))).length := by omega
    refine ⟨(sortedCopy (slice xs3 l (l + j)))[a], ?_, ?_⟩
    · rw [hsorted, List.getElem?_append_left ha2]
      exact List.getElem?_eq_getElem ha2
    · exact hA _ ((sortedCopy_perm _).mem_iff.mp (List.getElem_mem ha2))

/-- Witness of claim C5 on an array with repeated values, partitioned inside
the sub-range `[1, 5)` around a repeated value. -/
theorem partition_returns_rank_witness :
    1 < 5 ∧ 5 ≤ ([7, 3, 2, 3, 1, 0] : List ℤ).length ∧ 2 < 5 - 1 ∧
    ∃ xs3 j p, impl.partition ([7, 3, 2, 3, 1, 0] : List ℤ) 2 1 5 = some (xs3, j) ∧
      ([7, 3, 2, 3, 1, 0] : List ℤ)[1 + 2]? = some p ∧
      j = (slice ([7, 3, 2, 3, 1, 0] : List ℤ) 1 5).countP (fun v => decide (v < p)) ∧
      (sortedCopy (slice ([7, 3, 2, 3, 1, 0] : List ℤ) 1 5))[j]? = some p ∧
      (∀ a, a < j →
        ∃ v, (sortedCopy (slice ([7, 3, 2, 3, 1, 0] : List ℤ) 1 5))[a]? = some v ∧ v < p) :=
  ⟨by decide, by decide, by decide,
    partition_returns_rank [7, 3, 2, 3, 1, 0] 2 1 5 (by decide) (by decide) (by decide)⟩

/-- Claim C7. Called with `0 ≤ l < r ≤ length`, `k < r - l` and `i < r - l`,
`partition(xs, k, l, r)` and `select(xs, l, r, i)` only permute the sub-range:
for every stream of pivot choices the array keeps its length, the elements at
the indices in `[l, r)` afterwards are a permutation of the elements that were
there, and every cell outside `[l, r)` is unchanged. -/
theorem partition_select_frame {α : Type} [LinearOrder α] (xs : List α) (k l r i : Nat)
    (hlr : l < r) (hr : r ≤ xs.length) (hk : k < r - l) (hi : i < r - l) :
    (∃ xs3 j, impl.partition xs k l r = some (xs3, j) ∧
      xs3.length = xs.length ∧ (slice xs3 l r).Perm (slice xs l r) ∧
      ∀ a, a < l ∨ r ≤ a → xs3[a]? = xs[a]?) ∧
    (∀ (rand : Nat → Nat) (t : Nat),
      ∃ v xs2 t2, impl.select rand xs l r i t = some (v, xs2, t2) ∧
        xs2.length = xs.length ∧ (slice xs2 l r).Perm (slice xs l r) ∧
        ∀ a, a < l ∨ r ≤ a → xs2[a]? = xs[a]?) := by
  constructor
  · obtain ⟨xs3, j, p, hrun, -, hlen, hperm, hfr, -⟩ := impl.partition_spec xs k l r hlr hr hk
    exact ⟨xs3, j, hrun, hlen, slice_perm_of_frame xs xs3 l r (by omega) hperm hfr, hfr⟩
  · intro rand t
    obtain ⟨v, xs2, t2, hrun, hlen, hperm, hfr, -⟩ := impl.select_spec rand xs l r i t hlr hr hi
    exact ⟨v, xs2, t2, hrun, hlen, slice_perm_of_frame xs xs2 l r (by omega) hperm hfr, hfr⟩

/-- Witness of claim C7 on the sub-range `[1, 5)` of an array of six
elements. -/
theorem partition_select_frame_witness :
    1 < 5 ∧ 5 ≤ ([7, 3, 2, 3, 1, 0] : List ℤ).length ∧ 2 < 5 - 1 ∧ 3 < 5 - 1 ∧
    ((∃ xs3 j, impl.partition ([7, 3, 2, 3, 1, 0] : List ℤ) 2 1 5 = some (xs3, j) ∧
      xs3.length = ([7, 3, 2, 3, 1, 0] : List ℤ).length ∧
      (slice xs3 1 5).Perm (slice ([7, 3, 2, 3, 1, 0] : List ℤ) 1 5) ∧
      ∀ a, a < 1 ∨ 5 ≤ a → xs3[a]? = ([7, 3, 2, 3, 1, 0] : List ℤ)[a]?) ∧
    (∀ (rand : Nat → Nat) (t : Nat),
      ∃ v xs2 t2, impl.select rand ([7, 3, 2, 3, 1, 0] : List ℤ) 1 5 3 t = some (v, xs2, t2) ∧
        xs2.length = ([7, 3, 2, 3, 1, 0] : List ℤ).length ∧
        (slice xs2 1 5).Perm (slice ([7, 3, 2, 3, 1, 0] : List ℤ) 1 5) ∧
        ∀ a, a < 1 ∨ 5 ≤ a → xs2[a]? = ([7, 3, 2, 3, 1, 0] : List ℤ)[a]?)) :=
  ⟨by decide, by decide, by decide, by decide,
    partition_select_frame [7, 3, 2, 3, 1, 0] 2 1 5 3 (by decide) (by decide) (by decide)
      (by decide)⟩

end numeric

/-! ## Median and median absolute deviation -/

namespace numeric

variable {α : Type}

theorem sortedMedian_eq_of_perm [LinearOrder α] [Add α] (toDouble : α → ℚ) {xs ys : List α}
    (h : xs.Perm ys) : sortedMedian toDouble xs = sortedMedian toDouble ys := by
  simp only [sortedMedian, sortedCopy_eq_of_perm h, h.length_eq]

/-- Specification of `median` on a non-empty array of length `n`: the call
returns the middle of the sorted copy and leaves a permutation of the
array. -/
theorem median_spec [LinearOrder α] [Add α] (toDouble : α → ℚ) (rand : Nat → Nat)
    (xs : List α) (n t : Nat) (hn : xs.length = n) (h1 : 1 ≤ n) :
    ∃ m xs2 t2, median toDouble rand xs n t = some (m, xs2, t2) ∧
      xs2.length = xs.length ∧ xs2.Perm xs ∧ sortedMedian toDouble xs = some m ∧ t ≤ t2 := by
  by_cases hpar : n % 2 = 0
  · obtain ⟨x, xs1, t1, hrun1, hlen1, hperm1, hval1, ht1⟩ :=
      impl.select3_spec rand xs n (n / 2 - 1) t hn (by omega)
    obtain ⟨y, xs2, t2, hrun2, hlen2, hperm2, hval2, ht2⟩ :=
      impl.select3_spec rand xs1 n (n / 2) t1 (by omega) (by omega)
    rw [sortedCopy_eq_of_perm hperm1] at hval2
    refine ⟨toDouble (x + y) / 2, xs2, t2, ?_, by omega, hperm2.trans hperm1, ?_, by omega⟩
    · simp only [median, hpar, if_true, hrun1, hrun2]
    · simp only [sortedMedian, hn, hpar, if_true, hval1, hval2]
  · obtain ⟨x, xs1, t1, hrun1, hlen1, hperm1, hval1, ht1⟩ :=
      impl.select3_spec rand xs n (n / 2) t hn (by omega)
    refine ⟨toDouble x, xs1, t1, ?_, hlen1, hperm1, ?_, ht1⟩
    · simp only [median, hpar, if_false, hrun1]
    · simp only [sortedMedian, hn, hpar, if_false, hval1]

/-- The loop of `mad` fills the buffer with the deviations of the first `c`
cells. -/
theorem deviations_take (toDouble : α → ℚ) (m : ℚ) (xs : List α) :
    ∀ c, c ≤ xs.length →
      deviations toDouble m xs c = some ((xs.take c).map (fun x => |toDouble x - m|)) := by
  intro c
  induction c with
  | zero => intro _; simp [deviations]
  | succ c ih =>
    intro hc
    have hx : xs[c]? = some xs[c] := List.getElem?_eq_getElem (by omega)
    simp only [deviations, ih (by omega), hx, List.take_succ, Option.toList, List.map_append,
      List.map_cons, List.map_nil]

theorem deviations_spec (toDouble : α → ℚ) (m : ℚ) (xs : List α) (n : Nat)
    (hn : xs.length = n) :
    deviations toDouble m xs n = some (xs.map (fun x => |toDouble x - m|)) := by
  rw [deviations_take toDouble m xs n (by omega), ← hn, List.take_length]

/-- Specification of `mad` on a non-empty array of length `n`: the call
returns, the caller's array is left as the first `median` call leaves it, and
the value is the middle of the sorted deviations of the original array from
its median. -/
theorem mad_spec [LinearOrder α] [Add α] (toDouble : α → ℚ) (rand : Nat → Nat)
    (xs : List α) (n t : Nat) (hn : xs.length = n) (h1 : 1 ≤ n) :
    ∃ y m xs1 t1 t2, mad toDouble rand xs n t = some (y, xs1, t2) ∧
      median toDouble rand xs n t = some (m, xs1, t1) ∧
      sortedMedian toDouble xs = some m ∧
      sortedMedian id (xs.map (fun x => |toDouble x - m|)) = some y ∧
      xs1.length = xs.length ∧ xs1.Perm xs ∧ t1 ≤ t2 := by
  obtain ⟨m, xs1, t1, hrun1, hlen1, hperm1, hval1, -⟩ := median_spec toDouble rand xs n t hn h1
  have hdev := deviations_spec toDouble m xs1 n (by omega)
  obtain ⟨y, ds, t2, hrun2, -, -, hval2, ht2⟩ :=
    median_spec id rand (xs1.map (fun x => |toDouble x - m|)) n t1
      (by rw [List.length_map]; omega) h1
  rw [sortedMedian_eq_of_perm id (hperm1.map _)] at hval2
  refine ⟨y, m, xs1, t1, t2, ?_, hrun1, hval1, hval2, hlen1, hperm1, ht2⟩
  simp only [mad, hrun1, hdev, hrun2]

end numeric

/-! ## Dependence on the random stream -/

namespace numeric

namespace impl

variable {α : Type}

/-- A run of the selection never moves the counter of the generator
backwards, and moves it forwards when it partitions. -/
theorem selectFuel_counter [LT α] [DecidableRel (fun (a b : α) => a < b)] (rand : Nat → Nat) :
    ∀ (fuel : Nat) (xs : List α) (l r i t : Nat) (v : α) (xs2 : List α) (t2 : Nat),
      selectFuel rand fuel xs l r i t = some (v, xs2, t2) →
      t ≤ t2 ∧ (r - l ≠ 1 → t < t2) := by
  intro fuel
  induction fuel with
  | zero => intro xs l r i t v xs2 t2 h; simp [selectFuel] at h
  | succ fuel ih =>
    intro xs l r i t v xs2 t2 h
    simp only [selectFuel] at h
    split at h
    · split at h
      · cases h
      · cases h
        exact ⟨le_refl _, fun hne => absurd (by assumption) hne⟩
    · split at h
      · cases h
      · split at h
        · cases h
        · split at h
          · split at h
            · cases h
            · cases h
              exact ⟨by omega, fun _ => by omega⟩
          · split at h
            · have := (ih _ _ _ _ _ _ _ _ h).1
              exact ⟨by omega, fun _ => by omega⟩
            · have := (ih _ _ _ _ _ _ _ _ h).1
              exact ⟨by omega, fun _ => by omega⟩

/-- A run of the selection depends on the random stream only through the
values it draws: a stream that agrees with `rand` on the positions
`[t, t2)` gives the same run. -/
theorem selectFuel_congr [LT α] [DecidableRel (fun (a b : α) => a < b)]
    (rand rand1 : Nat → Nat) :
    ∀ (fuel : Nat) (xs : List α) (l r i t : Nat) (v : α) (xs2 : List α) (t2 : Nat),
      selectFuel rand fuel xs l r i t = some (v, xs2, t2) →
      (∀ s, t ≤ s → s < t2 → rand1 s = rand s) →
      selectFuel rand1 fuel xs l r i t = some (v, xs2, t2) := by
  intro fuel
  induction fuel with
  | zero => intro xs l r i t v xs2 t2 h; simp [selectFuel] at h
  | succ fuel ih =>
    intro xs l r i t v xs2 t2 h hag
    by_cases hn : r - l = 1
    · simp only [selectFuel, hn, if_true] at h ⊢
      exact h
    · have ht : t < t2 := (selectFuel_counter rand _ _ _ _ _ _ _ _ _ h).2 hn
      have hr : rand1 t = rand t := hag t (le_refl _) ht
      by_cases hn0 : r - l = 0
      · simp [selectFuel, hn0] at h
      · simp only [selectFuel, hn, hn0, if_false, hr] at h ⊢
        cases hp : partition xs (rand t % (r - l)) l r with
        | none => simp [hp] at h
        | some res =>
          obtain ⟨xs1, j⟩ := res
          simp only [hp] at h ⊢
          by_cases hji : j = i
          · simp only [hji, if_true] at h ⊢
            exact h
          · simp only [hji, if_false] at h ⊢
            by_cases hgt : j > i
            · simp only [hgt, if_true] at h ⊢
              exact ih _ _ _ _ _ _ _ _ h (fun s h1 h2 => hag s (by omega) h2)
            · simp only [hgt, if_false] at h ⊢
              exact ih _ _ _ _ _ _ _ _ h (fun s h1 h2 => hag s (by omega) h2)

theorem select3_counter [LT α] [DecidableRel (fun (a b : α) => a < b)] (rand : Nat → Nat)
    (xs : List α) (n i t : Nat) (v : α) (xs2 : List α) (t2 : Nat)
    (h : select3 rand xs n i t = some (v, xs2, t2)) : t ≤ t2 :=
  (selectFuel_counter rand _ _ _ _ _ _ _ _ _ h).1

theorem select3_congr [LT α] [DecidableRel (fun (a b : α) => a < b)] (rand rand1 : Nat → Nat)
    (xs : List α) (n i t : Nat) (v : α) (xs2 : List α) (t2 : Nat)
    (h : select3 rand xs n i t = some (v, xs2, t2))
    (hag : ∀ s, t ≤ s → s < t2 → rand1 s = rand s) :
    select3 rand1 xs n i t = some (v, xs2, t2) :=
  selectFuel_congr rand rand1 _ _ _ _ _ _ _ _ _ h hag

end impl

/-- A run of `median` depends on the random stream only through the values it
draws. -/
theorem median_congr {α : Type} [LT α] [DecidableRel (fun (a b : α) => a < b)] [Add α]
    (toDouble : α → ℚ) (rand rand1 : Nat → Nat) (xs : List α) (n t : Nat)
    (m : ℚ) (xs2 : List α) (t2 : Nat)
    (h : median toDouble rand xs n t = some (m, xs2, t2))
    (hag : ∀ s, t ≤ s → s < t2 → rand1 s = rand s) :
    median toDouble rand1 xs n t = some (m, xs2, t2) := by
  simp only [median] at h ⊢
  split at h
  · rw [if_pos (by assumption)]
    split at h
    · cases h
    · rename_i x xs1 t1 hs1
      split at h
      · cases h
      · rename_i y xs3 t3 hs2
        cases h
        have h12 := impl.select3_counter rand _ _ _ _ _ _ _ hs2
        rw [impl.select3_congr rand rand1 _ _ _ _ _ _ _ hs1 (fun s h1 h2 => hag s h1 (by omega))]
        simp only
        rw [impl.select3_congr rand rand1 _ _ _ _ _ _ _ hs2
          (fun s h1 h2 => hag s (by have := impl.select3_counter rand _ _ _ _ _ _ _ hs1; omega) h2)]
  · rw [if_neg (by assumption)]
    split at h
    · cases h
    · rename_i x xs1 t1 hs1
      cases h
      rw [impl.select3_congr rand rand1 _ _ _ _ _ _ _ hs1 hag]

end numeric

/-! ## Claims on `select`, `median` and `mad` -/

namespace numeric

/-- Claim C2. For every non-empty array `xs` of length `n` and every stream of
random pivot choices, `median(xs, n)` returns the middle of the ascending
sorted copy `s` of `xs`: `s[n/2]` when `n` is odd and
`(s[n/2 - 1] + s[n/2]) / 2` when `n` is even, where the sum is taken in the
element type without overflow and the division is exact. -/
theorem median_is_sorted_middle {α : Type} [LinearOrder α] [Add α] (toDouble : α → ℚ)
    (rand : Nat → Nat) (xs : List α) (n t : Nat) (hn : xs.length = n) (h1 : 1 ≤ n) :
    ∃ m xs2 t2, median toDouble rand xs n t = some (m, xs2, t2) ∧
      (n % 2 = 1 → ∃ a, (sortedCopy xs)[n / 2]? = some a ∧ m = toDouble a) ∧
      (n % 2 = 0 → ∃ a b, (sortedCopy xs)[n / 2 - 1]? = some a ∧
        (sortedCopy xs)[n / 2]? = some b ∧ m = toDouble (a + b) / 2) := by
  obtain ⟨m, xs2, t2, hrun, -, -, hval, -⟩ := median_spec toDouble rand xs n t hn h1
  have hlen := sortedCopy_length xs
  have hlo : (sortedCopy xs)[n / 2 - 1]? = some (sortedCopy xs)[n / 2 - 1] :=
    List.getElem?_eq_getElem (by omega)
  have hhi : (sortedCopy xs)[n / 2]? = some (sortedCopy xs)[n / 2] :=
    List.getElem?_eq_getElem (by omega)
  refine ⟨m, xs2, t2, hrun, ?_, ?_⟩
  · intro hodd
    have hpar : ¬ n % 2 = 0 := by omega
    simp only [sortedMedian, hn, hpar, if_false, hhi, Option.some.injEq] at hval
    exact ⟨_, hhi, hval.symm⟩
  · intro hpar
    simp only [sortedMedian, hn, hpar, if_true, hlo, hhi, Option.some.injEq] at hval
    exact ⟨_, _, hlo, hhi, hval.symm⟩

/-- Witness of claim C2 on the array `2, 1, 8, 6` of the unit test. -/
theorem median_is_sorted_middle_witness :
    ([2, 1, 8, 6] : List ℤ).length = 4 ∧ 1 ≤ 4 ∧
    ∃ m xs2 t2, median intToDouble (fun t => 7 * t + 3) ([2, 1, 8, 6] : List ℤ) 4 0
        = some (m, xs2, t2) ∧
      (4 % 2 = 1 → ∃ a, (sortedCopy ([2, 1, 8, 6] : List ℤ))[4 / 2]? = some a ∧ m = intToDouble a) ∧
      (4 % 2 = 0 → ∃ a b, (sortedCopy ([2, 1, 8, 6] : List ℤ))[4 / 2 - 1]? = some a ∧
        (sortedCopy ([2, 1, 8, 6] : List ℤ))[4 / 2]? = some b ∧ m = intToDouble (a + b) / 2) :=
  ⟨by decide, by decide,
    median_is_sorted_middle intToDouble (fun t => 7 * t + 3) [2, 1, 8, 6] 4 0
      (by decide) (by decide)⟩

/-- Claim C3. For every non-empty array `xs` of length `n` and all streams of
random pivot choices, `mad(xs, n)` returns the value that `median` returns on
the absolute deviations `|xs[k] - m|` built from the original, unpermuted
`xs`, where `m` is the value `median` returns on `xs`. -/
theorem mad_is_median_of_deviations {α : Type} [LinearOrder α] [Add α] (toDouble : α → ℚ)
    (rand rand1 rand2 : Nat → Nat) (xs : List α) (n t t1 t2 : Nat)
    (hn : xs.length = n) (h1 : 1 ≤ n) :
    ∃ y m xs1 t3 xs2 t4 ds t5,
      mad toDouble rand xs n t = some (y, xs1, t3) ∧
      median toDouble rand1 xs n t1 = some (m, xs2, t4) ∧
      median id rand2 (xs.map (fun x => |toDouble x - m|)) n t2 = some (y, ds, t5) := by
  obtain ⟨y, m, xs1, -, t3, hmad, -, hm, hy, -⟩ := mad_spec toDouble rand xs n t hn h1
  obtain ⟨m1, xs2, t4, hmed, -, -, hm1, -⟩ := median_spec toDouble rand1 xs n t1 hn h1
  obtain ⟨y1, ds, t5, hdev, -, -, hy1, -⟩ :=
    median_spec id rand2 (xs.map (fun x => |toDouble x - m1|)) n t2
      (by rw [List.length_map]; exact hn) h1
  have hmm : m1 = m := Option.some.inj (hm1.symm.trans hm)
  subst hmm
  have hyy : y1 = y := Option.some.inj (hy1.symm.trans hy)
  subst hyy
  exact ⟨y1, m1, xs1, t3, xs2, t4, ds, t5, hmad, hmed, hdev⟩

/-- Witness of claim C3 on the array `6, 1, 2, 5, 9` of the unit test, with
three different streams of pivot choices. -/
theorem mad_is_median_of_deviations_witness :
    ([6, 1, 2, 5, 9] : List ℤ).length = 5 ∧ 1 ≤ 5 ∧
    ∃ y m xs1 t3 xs2 t4 ds t5,
      mad intToDouble (fun t => 7 * t + 3) ([6, 1, 2, 5, 9] : List ℤ) 5 0
        = some (y, xs1, t3) ∧
      median intToDouble (fun _ => 0) ([6, 1, 2, 5, 9] : List ℤ) 5 0
        = some (m, xs2, t4) ∧
      median id (fun t => t)
        (([6, 1, 2, 5, 9] : List ℤ).map (fun x => |intToDouble x - m|)) 5 0
        = some (y, ds, t5) :=
  ⟨by decide, by decide,
    mad_is_median_of_deviations intToDouble (fun t => 7 * t + 3) (fun _ => 0)
      (fun t => t) [6, 1, 2, 5, 9] 5 0 0 0 (by decide) (by decide)⟩

/-- Claim C6. The value returned by `select` does not depend on the random
pivots or on the initial order: for two arrays of length `n ≥ 1` that are
permutations of each other, a rank `i < n` and any two streams of pivot
choices, the two runs of `select(xs, n, i)` return the same value, and so do
the two runs of `median`. -/
theorem select_value_independent {α : Type} [LinearOrder α] [Add α] (toDouble : α → ℚ)
    (rand rand1 : Nat → Nat) (xs ys : List α) (n i t t1 : Nat)
    (hperm : xs.Perm ys) (hn : xs.length = n) (hi : i < n) :
    (∃ v xs2 t2 ys2 t3, impl.select3 rand xs n i t = some (v, xs2, t2) ∧
      impl.select3 rand1 ys n i t1 = some (v, ys2, t3)) ∧
    (∃ m xs2 t2 ys2 t3, median toDouble rand xs n t = some (m, xs2, t2) ∧
      median toDouble rand1 ys n t1 = some (m, ys2, t3)) := by
  have hny : ys.length = n := by rw [← hperm.length_eq]; exact hn
  constructor
  · obtain ⟨v, xs2, t2, hrun, -, -, hval, -⟩ := impl.select3_spec rand xs n i t hn hi
    obtain ⟨w, ys2, t3, hrun1, -, -, hval1, -⟩ := impl.select3_spec rand1 ys n i t1 hny hi
    rw [← sortedCopy_eq_of_perm hperm, hval] at hval1
    cases hval1
    exact ⟨v, xs2, t2, ys2, t3, hrun, hrun1⟩
  · obtain ⟨m, xs2, t2, hrun, -, -, hval, -⟩ :=
      median_spec toDouble rand xs n t hn (by omega)
    obtain ⟨m1, ys2, t3, hrun1, -, -, hval1, -⟩ :=
      median_spec toDouble rand1 ys n t1 hny (by omega)
    rw [← sortedMedian_eq_of_perm toDouble hperm, hval] at hval1
    cases hval1
    exact ⟨m, xs2, t2, ys2, t3, hrun, hrun1⟩

/-- Witness of claim C6 on the array `2, 1, 8, 6` of the unit test and its
reversal, with two different streams of pivot choices. -/
theorem select_value_independent_witness :
    ([2, 1, 8, 6] : List ℤ).Perm [6, 8, 1, 2] ∧ ([2, 1, 8, 6] : List ℤ).length = 4 ∧ 1 < 4 ∧
    ((∃ v xs2 t2 ys2 t3,
      impl.select3 (fun t => 7 * t + 3) ([2, 1, 8, 6] : List ℤ) 4 1 0 = some (v, xs2, t2) ∧
      impl.select3 (fun _ => 0) ([6, 8, 1, 2] : List ℤ) 4 1 5 = some (v, ys2, t3)) ∧
    (∃ m xs2 t2 ys2 t3,
      median intToDouble (fun t => 7 * t + 3) ([2, 1, 8, 6] : List ℤ) 4 0
        = some (m, xs2, t2) ∧
      median intToDouble (fun _ => 0) ([6, 8, 1, 2] : List ℤ) 4 5
        = some (m, ys2, t3))) :=
  ⟨by decide, by decide, by decide,
    select_value_independent intToDouble (fun t => 7 * t + 3) (fun _ => 0)
      [2, 1, 8, 6] [6, 8, 1, 2] 4 1 0 5 (by decide) (by decide) (by decide)⟩

/-- Claim C8. For every non-empty array `xs` of length `n`, `median(xs, n)`
leaves some array `xs1`, and `mad(xs, n)` leaves the same `xs1` whenever its
first `median` call draws the same pivot choices, whatever the pivot choices
of its second `median` call: the second call reorders only the deviations. -/
theorem mad_leaves_array_of_first_median {α : Type} [LinearOrder α] [Add α]
    (toDouble : α → ℚ) (rand : Nat → Nat) (xs : List α) (n t : Nat)
    (hn : xs.length = n) (h1 : 1 ≤ n) :
    ∃ m xs1 t1, median toDouble rand xs n t = some (m, xs1, t1) ∧
      ∀ rand1 : Nat → Nat, (∀ s, t ≤ s → s < t1 → rand1 s = rand s) →
        ∃ y t2, mad toDouble rand1 xs n t = some (y, xs1, t2) := by
  obtain ⟨m, xs1, t1, hmed, -⟩ := median_spec toDouble rand xs n t hn h1
  refine ⟨m, xs1, t1, hmed, ?_⟩
  intro rand1 hag
  have hmed1 := median_congr toDouble rand rand1 xs n t m xs1 t1 hmed hag
  obtain ⟨y, m2, xs2, t3, t2, hmad, hmed2, -⟩ := mad_spec toDouble rand1 xs n t hn h1
  rw [hmed1] at hmed2
  cases hmed2
  exact ⟨y, t2, hmad⟩

/-- Witness of claim C8 on the array `2, 1, 8, 6` of the unit test. -/
theorem mad_leaves_array_of_first_median_witness :
    ([2, 1, 8, 6] : List ℤ).length = 4 ∧ 1 ≤ 4 ∧
    ∃ m xs1 t1, median intToDouble (fun t => 7 * t + 3) ([2, 1, 8, 6] : List ℤ) 4 0
        = some (m, xs1, t1) ∧
      ∀ rand1 : Nat → Nat, (∀ s, 0 ≤ s → s < t1 → rand1 s = (fun t => 7 * t + 3) s) →
        ∃ y t2, mad intToDouble rand1 ([2, 1, 8, 6] : List ℤ) 4 0 = some (y, xs1, t2) :=
  ⟨by decide, by decide,
    mad_leaves_array_of_first_median intToDouble (fun t => 7 * t + 3) [2, 1, 8, 6] 4 0
      (by decide) (by decide)⟩

theorem sortedMedian_test_array : sortedMedian intToDouble ([2, 1, 8, 6] : List ℤ) = some 4 := by
  have hs : sortedCopy ([2, 1, 8, 6] : List ℤ) = [1, 2, 6, 8] := by decide
  simp only [sortedMedian, hs]
  norm_num [intToDouble]

theorem sortedMedian_test_deviations :
    sortedMedian id (([2, 1, 8, 6] : List ℤ).map (fun x => |intToDouble x - 4|))
      = some (5 / 2) := by
  have hd : ([2, 1, 8, 6] : List ℤ).map (fun x => |intToDouble x - 4|) = [2, 3, 4, 2] := by
    simp only [List.map_cons, List.map_nil, intToDouble]
    norm_num [abs_of_nonneg, abs_of_nonpos]
  have hs : sortedCopy ([2, 3, 4, 2] : List ℚ) = [2, 2, 3, 4] := by
    simp only [sortedCopy, List.insertionSort, List.orderedInsert]
    norm_num
  rw [hd]
  simp only [sortedMedian, hs]
  norm_num

/-- Claim C9. For the array `2, 1, 8, 6` and every stream of random pivot
choices, `median` returns `4.0`, and `mad` called afterwards on the array as
`median` left it returns `2.5`. -/
theorem median_mad_of_test_array (rand rand1 : Nat → Nat) (t t1 : Nat) :
    ∃ xs1 t2, median intToDouble rand ([2, 1, 8, 6] : List ℤ) 4 t = some (4, xs1, t2) ∧
      ∃ xs2 t3, mad intToDouble rand1 xs1 4 t1 = some (5 / 2, xs2, t3) := by
  obtain ⟨m, xs1, t2, hmed, hlen, hperm, hm, -⟩ :=
    median_spec intToDouble rand ([2, 1, 8, 6] : List ℤ) 4 t rfl (by decide)
  rw [sortedMedian_test_array] at hm
  cases hm
  refine ⟨xs1, t2, hmed, ?_⟩
  obtain ⟨y, m, xs2, -, t3, hmad, -, hm, hy, -⟩ :=
    mad_spec intToDouble rand1 xs1 4 t1 hlen (by decide)
  rw [sortedMedian_eq_of_perm intToDouble hperm, sortedMedian_test_array] at hm
  cases hm
  rw [sortedMedian_eq_of_perm id (hperm.map _), sortedMedian_test_deviations] at hy
  cases hy
  exact ⟨xs2, t3, hmad⟩

end numeric

/-! ## The error contract of `correlation` -/

namespace numeric

variable {α K : Type}

theorem meanLoop_ne_invalidArgument [Zero α] [Add α] (xs : List α) :
    ∀ c, meanLoop xs c ≠ Except.error Error.invalidArgument := by
  intro c
  induction c with
  | zero => simp [meanLoop]
  | succ c ih =>
    simp only [meanLoop]
    split
    · rename_i e he
      intro h
      cases h
      exact ih he
    · split <;> simp

theorem mean_ne_invalidArgument [Zero α] [Add α] [Field K] (toDouble : α → K)
    (xs : List α) (n : Nat) : mean toDouble xs n ≠ Except.error Error.invalidArgument := by
  simp only [mean]
  split
  · rename_i e he
    intro h
    cases h
    exact meanLoop_ne_invalidArgument xs n he
  · simp

theorem varianceLoop_ne_invalidArgument [Zero α] [Add α] [Mul α] [Field K] (toDouble : α → K)
    (ofDouble : K → α) (m : K) (xs : List α) :
    ∀ c, varianceLoop toDouble ofDouble m xs c ≠ Except.error Error.invalidArgument := by
  intro c
  induction c with
  | zero => simp [varianceLoop]
  | succ c ih =>
    simp only [varianceLoop]
    split
    · rename_i e he
      intro h
      cases h
      exact ih he
    · split <;> simp

theorem variance_ne_invalidArgument [Zero α] [Add α] [Mul α] [Field K] (toDouble : α → K)
    (ofDouble : K → α) (xs : List α) (n : Nat) (m : K) :
    variance toDouble ofDouble xs n m ≠ Except.error Error.invalidArgument := by
  simp only [variance]
  split
  · rename_i e he
    intro h
    cases h
    exact varianceLoop_ne_invalidArgument toDouble ofDouble m xs n he
  · simp

theorem dotLoop_ne_invalidArgument [Mul α] [Field K] (toDouble : α → K) (xs ys : List α) :
    ∀ c, dotLoop toDouble xs ys c ≠ (Except.error Error.invalidArgument : Except Error K) := by
  intro c
  induction c with
  | zero => simp [dotLoop]
  | succ c ih =>
    simp only [dotLoop]
    split
    · rename_i e he
      intro h
      cases h
      exact ih he
    · split <;> simp

/-- Claim C10. `correlation(xs, n_x, ys, n_y)` fails with the invalid-argument
error if and only if `n_x` differs from `n_y`.  The statement holds for all
arrays, also for arrays too short to be read at all, so the check precedes
every read; and when `n_x` equals `n_y` the outcome is never the
invalid-argument error. -/
theorem correlation_invalidArgument_iff [Zero α] [Add α] [Mul α] [Field K]
    (toDouble : α → K) (ofDouble : K → α) (sqrt : K → K)
    (xs : List α) (n_x : Nat) (ys : List α) (n_y : Nat) :
    correlation toDouble ofDouble sqrt xs n_x ys n_y = Except.error Error.invalidArgument
      ↔ n_x ≠ n_y := by
  constructor
  · intro h
    intro heq
    unfold correlation at h
    rw [if_neg (not_not.mpr heq)] at h
    split at h
    · rename_i e he
      cases h
      exact mean_ne_invalidArgument toDouble xs n_x he
    · split at h
      · rename_i e he
        cases h
        exact variance_ne_invalidArgument toDouble ofDouble xs n_x _ he
      · split at h
        · rename_i e he
          cases h
          exact mean_ne_invalidArgument toDouble ys n_y he
        · split at h
          · rename_i e he
            cases h
            exact variance_ne_invalidArgument toDouble ofDouble ys n_y _ he
          · split at h
            · rename_i e he
              cases h
              exact dotLoop_ne_invalidArgument toDouble xs ys n_x he
            · cases h
  · intro hne
    unfold correlation
    rw [if_pos hne]

end numeric

/-! ## One activation of `select` -/

namespace numeric

namespace impl

variable {α : Type}

/-- The recursion of `select` unfolds into its body: one activation either
fails, returns, or continues as the recursive call the body makes. -/
theorem selectFuel_succ_eq [LT α] [DecidableRel (fun (a b : α) => a < b)] (rand : Nat → Nat)
    (fuel : Nat) (xs : List α) (l r i t : Nat) :
    selectFuel rand (fuel + 1) xs l r i t =
      match selectBody rand xs l r i t with
      | none => none
      | some (SelectStep.ret v xs1 t1) => some (v, xs1, t1)
      | some (SelectStep.call xs1 l1 r1 i1 t1) => selectFuel rand fuel xs1 l1 r1 i1 t1 := by
  simp only [selectFuel, selectBody]
  by_cases hn : r - l = 1
  · simp only [hn, if_true]
    cases xs[l]? <;> rfl
  · simp only [hn, if_false]
    by_cases hn0 : r - l = 0
    · simp only [hn0, if_true]
    · simp only [hn0, if_false]
      cases hp : partition xs (rand t % (r - l)) l r with
      | none => rfl
      | some res =>
        obtain ⟨xs1, j⟩ := res
        simp only
        by_cases hji : j = i
        · simp only [hji, if_true]
          cases xs1[l + i]? <;> rfl
        · simp only [hji, if_false]
          by_cases hgt : j > i
          · simp only [hgt, if_true]
          · simp only [hgt, if_false]

/-- The scan moves the boundary index forwards by at most the number of its
iterations, whatever the array. -/
theorem partitionLoop_boundary [LT α] [DecidableRel (fun (a b : α) => a < b)] (p : α) :
    ∀ (m : Nat) (xs : List α) (i j : Nat) (xs1 : List α) (i1 : Nat),
      partitionLoop p m xs i j = some (xs1, i1) → i ≤ i1 ∧ i1 ≤ i + m := by
  intro m
  induction m with
  | zero =>
    intro xs i j xs1 i1 h
    simp only [partitionLoop, Option.some.injEq, Prod.mk.injEq] at h
    omega
  | succ m ih =>
    intro xs i j xs1 i1 h
    simp only [partitionLoop] at h
    split at h
    · cases h
    · split at h
      · split at h
        · cases h
        · have := ih _ _ _ _ _ h
          omega
      · have := ih _ _ _ _ _ h
        omega

/-- The index returned by `partition` is inside a non-empty sub-range,
whatever the array. -/
theorem partition_index_lt [LT α] [DecidableRel (fun (a b : α) => a < b)]
    (xs : List α) (k l r : Nat) (xs1 : List α) (j : Nat)
    (h : partition xs k l r = some (xs1, j)) (hlr : l < r) : j < r - l := by
  simp only [partition] at h
  split at h
  · cases h
  · split at h
    · cases h
    · split at h
      · cases h
      · rename_i xs2 i hloop
        split at h
        · cases h
        · simp only [Option.some.injEq, Prod.mk.injEq] at h
          have := partitionLoop_boundary _ _ _ _ _ _ _ hloop
          omega

/-- A recursive call of `select` is on a strictly smaller sub-range, whatever
the array and the pivot. -/
theorem selectBody_call_lt [LT α] [DecidableRel (fun (a b : α) => a < b)] (rand : Nat → Nat)
    (xs : List α) (l r i t : Nat) (xs1 : List α) (l1 r1 i1 t1 : Nat)
    (h : selectBody rand xs l r i t = some (SelectStep.call xs1 l1 r1 i1 t1)) :
    r1 - l1 < r - l ∧ t1 = t + 1 ∧ (i < r - l → i1 < r1 - l1) := by
  simp only [selectBody] at h
  split at h
  · split at h <;> cases h
  · split at h
    · cases h
    · split at h
      · cases h
      · rename_i xs2 j hp
        have hj := partition_index_lt _ _ _ _ _ _ hp (by omega)
        split at h
        · split at h <;> cases h
        · split at h
          · cases h
            exact ⟨by omega, rfl, fun _ => by omega⟩
          · cases h
            exact ⟨by omega, rfl, fun _ => by omega⟩

/-- A depth bound of at least the length of the sub-range is never the reason
why `select` fails: all such bounds give the same outcome. -/
theorem selectFuel_stable [LT α] [DecidableRel (fun (a b : α) => a < b)] (rand : Nat → Nat) :
    ∀ (f1 f2 : Nat) (xs : List α) (l r i t : Nat), r - l ≤ f1 → r - l ≤ f2 →
      selectFuel rand f1 xs l r i t = selectFuel rand f2 xs l r i t := by
  have hzero : ∀ (f : Nat) (xs : List α) (l r i t : Nat), r - l = 0 →
      selectFuel rand f xs l r i t = none := by
    intro f xs l r i t h0
    cases f with
    | zero => rfl
    | succ f => simp [selectFuel, h0]
  intro f1
  induction f1 with
  | zero =>
    intro f2 xs l r i t h1 h2
    rw [hzero 0 xs l r i t (by omega), hzero f2 xs l r i t (by omega)]
  | succ f1 ih =>
    intro f2 xs l r i t h1 h2
    cases f2 with
    | zero => rw [hzero _ xs l r i t (by omega), hzero 0 xs l r i t (by omega)]
    | succ f2 =>
      rw [selectFuel_succ_eq, selectFuel_succ_eq]
      cases hb : selectBody rand xs l r i t with
      | none => rfl
      | some step =>
        cases step with
        | ret v xs1 t1 => rfl
        | call xs1 l1 r1 i1 t1 =>
          have := (selectBody_call_lt rand xs l r i t xs1 l1 r1 i1 t1 hb).1
          exact ih f2 xs1 l1 r1 i1 t1 (by omega) (by omega)

/-- A run of `select` that returns has drawn at most `r - l - 1` random
numbers, one for each call of `partition`. -/
theorem selectFuel_draws [LT α] [DecidableRel (fun (a b : α) => a < b)] (rand : Nat → Nat) :
    ∀ (fuel : Nat) (xs : List α) (l r i t : Nat) (v : α) (xs2 : List α) (t2 : Nat),
      selectFuel rand fuel xs l r i t = some (v, xs2, t2) → l < r → i < r - l →
      t2 + 1 + l ≤ t + r := by
  intro fuel
  induction fuel with
  | zero => intro xs l r i t v xs2 t2 h; simp [selectFuel] at h
  | succ fuel ih =>
    intro xs l r i t v xs2 t2 h hlr hi
    rw [selectFuel_succ_eq] at h
    cases hb : selectBody rand xs l r i t with
    | none => simp [hb] at h
    | some step =>
      cases step with
      | ret v1 xs1 t1 =>
        simp only [hb, Option.some.injEq, Prod.mk.injEq] at h
        obtain ⟨-, -, ht⟩ := h
        subst ht
        simp only [selectBody] at hb
        split at hb
        · split at hb
          · cases hb
          · cases hb
            omega
        · split at hb
          · cases hb
          · split at hb
            · cases hb
            · split at hb
              · split at hb
                · cases hb
                · cases hb
                  omega
              · split at hb <;> cases hb
      | call xs1 l1 r1 i1 t1 =>
        simp only [hb] at h
        obtain ⟨hlt, ht, hi1⟩ := selectBody_call_lt rand xs l r i t xs1 l1 r1 i1 t1 hb
        have hi2 := hi1 hi
        have hrec := ih xs1 l1 r1 i1 t1 v xs2 t2 h (by omega) hi2
        have hl1 : l ≤ l1 ∧ r1 ≤ r := by
          simp only [selectBody] at hb
          split at hb
          · split at hb <;> cases hb
          · split at hb
            · cases hb
            · split at hb
              · cases hb
              · rename_i xs3 j hp
                have hj := partition_index_lt _ _ _ _ _ _ hp hlr
                split at hb
                · split at hb <;> cases hb
                · split at hb
                  · cases hb
                    omega
                  · cases hb
                    omega
        omega

end impl

end numeric

/-! ## Claims on the zones of `partition` and the recursion of `select` -/

namespace numeric

variable {α : Type}

theorem mem_slice_of_getElem? (xs : List α) (l r a : Nat) (v : α) (hla : l ≤ a) (har : a < r)
    (hv : xs[a]? = some v) : v ∈ slice xs l r := by
  apply List.mem_iff_getElem?.mpr
  refine ⟨a - l, ?_⟩
  rw [slice_getElem?, if_pos (by omega)]
  have h : l + (a - l) = a := by omega
  rw [h]
  exact hv

/-- Counterexample to claim C14 as stated. On the array `3, 2, 2, 4, 2` with
the pivot at index `1`, `partition` leaves the pivot value `2` in cell `0` and
a cell after it, cell `2`, holds `2`, which is not greater than the pivot. -/
theorem partition_strict_zone_counterexample :
    ∃ xs3 j p a v, impl.partition ([3, 2, 2, 4, 2] : List ℤ) 1 0 5 = some (xs3, j) ∧
      ([3, 2, 2, 4, 2] : List ℤ)[0 + 1]? = some p ∧ xs3[0 + j]? = some p ∧
      0 + j < a ∧ a < 5 ∧ xs3[a]? = some v ∧ ¬ p < v :=
  ⟨[2, 3, 2, 4, 2], 0, 2, 2, 2, by decide⟩

/-- Claim C14, amended. After `partition(xs, k, l, r)` with
`0 ≤ l < r ≤ length` and `k < r - l` the sub-range is organized in three
zones: the elements before the pivot are less than the pivot, then the pivot,
and every element after the pivot within `[l, r)` is greater than or equal to
the pivot, and strictly greater when the pivot value occurs only once in the
sub-range. -/
theorem partition_three_zones [LinearOrder α] (xs : List α) (k l r : Nat)
    (hlr : l < r) (hr : r ≤ xs.length) (hk : k < r - l) :
    ∃ xs3 j p, impl.partition xs k l r = some (xs3, j) ∧
      xs[l + k]? = some p ∧ xs3[l + j]? = some p ∧
      (∀ a, l ≤ a → a < l + j → ∃ v, xs3[a]? = some v ∧ v < p) ∧
      (∀ a, l + j < a → a < r → ∃ v, xs3[a]? = some v ∧ p ≤ v ∧
        ((slice xs l r).count p = 1 → p < v)) := by
  obtain ⟨xs3, j, p, hrun, hpiv, hlen, hperm, hfr, hj, hp, hlt, hge⟩ :=
    impl.partition_spec xs k l r hlr hr hk
  refine ⟨xs3, j, p, hrun, hpiv, hp, ?_, ?_⟩
  · intro a h1 h2
    have ha : a < xs3.length := by omega
    exact ⟨xs3[a], List.getElem?_eq_getElem ha,
      hlt a h1 h2 _ (List.getElem?_eq_getElem ha)⟩
  · intro a h1 h2
    have ha : a < xs3.length := by omega
    have hv : xs3[a]? = some xs3[a] := List.getElem?_eq_getElem ha
    have hpv : p ≤ xs3[a] := hge a h1 h2 _ hv
    refine ⟨xs3[a], hv, hpv, ?_⟩
    intro hcount
    rw [← (slice_perm_of_frame xs xs3 l r (by omega) hperm hfr).count_eq,
      slice_split xs3 l (l + j) r p (by omega) (by omega) hp, List.count_append,
      List.count_cons_self] at hcount
    have hzero : (slice xs3 (l + j + 1) r).count p = 0 := by omega
    have hmem : xs3[a] ∈ slice xs3 (l + j + 1) r :=
      mem_slice_of_getElem? xs3 (l + j + 1) r a _ (by omega) h2 hv
    rcases lt_or_eq_of_le hpv with h | h
    · exact h
    · rw [← h] at hmem
      exact absurd hmem (List.count_eq_zero.mp hzero)

/-- Witness of the amended claim C14 on the sub-range `[1, 5)` of an array in
which the pivot value `2` occurs once in the sub-range. -/
theorem partition_three_zones_witness :
    1 < 5 ∧ 5 ≤ ([7, 3, 2, 3, 1, 0] : List ℤ).length ∧ 1 < 5 - 1 ∧
    ∃ xs3 j p, impl.partition ([7, 3, 2, 3, 1, 0] : List ℤ) 1 1 5 = some (xs3, j) ∧
      ([7, 3, 2, 3, 1, 0] : List ℤ)[1 + 1]? = some p ∧ xs3[1 + j]? = some p ∧
      (∀ a, 1 ≤ a → a < 1 + j → ∃ v, xs3[a]? = some v ∧ v < p) ∧
      (∀ a, 1 + j < a → a < 5 → ∃ v, xs3[a]? = some v ∧ p ≤ v ∧
        ((slice ([7, 3, 2, 3, 1, 0] : List ℤ) 1 5).count p = 1 → p < v)) :=
  ⟨by decide, by decide, by decide,
    partition_three_zones [7, 3, 2, 3, 1, 0] 1 1 5 (by decide) (by decide) (by decide)⟩

/-- Claim C15. The invariants of the selector are preserved by its recursion:
when `select(xs, l, r, i)` is called with `0 ≤ l < r ≤ n` and `i < r - l` on
an array of length `n`, then for every pivot choice a recursive call
`select(xs, l1, r1, i1)` that it makes is on an array of the same length and
has `l1 < r1 ≤ n` and `i1 < r1 - l1`; the rank is adjusted without underflow,
as the global index `l1 + i1` of the target is still `l + i`. -/
theorem select_invariants_preserved [LinearOrder α] (rand : Nat → Nat) (xs : List α)
    (l r i t : Nat) (hlr : l < r) (hr : r ≤ xs.length) (hi : i < r - l) :
    ∀ xs1 l1 r1 i1 t1,
      impl.selectBody rand xs l r i t = some (impl.SelectStep.call xs1 l1 r1 i1 t1) →
      xs1.length = xs.length ∧ l1 < r1 ∧ r1 ≤ xs1.length ∧ i1 < r1 - l1 ∧
        l1 + i1 = l + i := by
  intro xs1 l1 r1 i1 t1 h
  simp only [impl.selectBody] at h
  split at h
  · split at h <;> cases h
  · split at h
    · cases h
    · split at h
      · cases h
      · rename_i xs2 j hp
        obtain ⟨xs3, j3, p, hrun, -, hlen, -, -, hj, -⟩ :=
          impl.partition_spec xs (rand t % (r - l)) l r hlr hr
            (Nat.mod_lt _ (by omega))
        rw [hrun] at hp
        cases hp
        split at h
        · split at h <;> cases h
        · split at h
          · cases h
            exact ⟨hlen, by omega, by omega, by omega, rfl⟩
          · cases h
            exact ⟨hlen, by omega, by omega, by omega, by omega⟩

/-- Witness of claim C15 on the array `6, 1, 2, 5, 9` of the unit test, for a
pivot choice that leads to a recursive call. -/
theorem select_invariants_preserved_witness :
    0 < 5 ∧ 5 ≤ ([6, 1, 2, 5, 9] : List ℤ).length ∧ 2 < 5 - 0 ∧
    ∀ xs1 l1 r1 i1 t1,
      impl.selectBody (fun _ => 1) ([6, 1, 2, 5, 9] : List ℤ) 0 5 2 0
        = some (impl.SelectStep.call xs1 l1 r1 i1 t1) →
      xs1.length = ([6, 1, 2, 5, 9] : List ℤ).length ∧ l1 < r1 ∧ r1 ≤ xs1.length ∧
        i1 < r1 - l1 ∧ l1 + i1 = 0 + 2 :=
  ⟨by decide, by decide, by decide,
    select_invariants_preserved (fun _ => 1) [6, 1, 2, 5, 9] 0 5 2 0
      (by decide) (by decide) (by decide)⟩

end numeric

namespace numeric

variable {α : Type}

/-- Claim C16. For bounds `0 ≤ l < r ≤ length`, a rank `i < r - l` and every
stream of pivot choices, `select(xs, l, r, i)` returns some `v` and leaves the
array arranged around the selected position: cell `l + i` holds `v`, every
cell in `[l, l + i)` holds a value less than or equal to `v`, and every cell
in `(l + i, r)` holds a value greater than or equal to `v`. -/
theorem select_arranges_array [LinearOrder α] (rand : Nat → Nat) (xs : List α)
    (l r i t : Nat) (hlr : l < r) (hr : r ≤ xs.length) (hi : i < r - l) :
    ∃ v xs2 t2, impl.select rand xs l r i t = some (v, xs2, t2) ∧
      xs2[l + i]? = some v ∧
      (∀ a, l ≤ a → a < l + i → ∃ w, xs2[a]? = some w ∧ w ≤ v) ∧
      (∀ a, l + i < a → a < r → ∃ w, xs2[a]? = some w ∧ v ≤ w) := by
  obtain ⟨v, xs2, t2, hrun, hlen, -, -, -, hcell, hbefore, hafter, -⟩ :=
    impl.select_spec rand xs l r i t hlr hr hi
  refine ⟨v, xs2, t2, hrun, hcell, ?_, ?_⟩
  · intro a h1 h2
    have ha : a < xs2.length := by omega
    exact ⟨xs2[a], List.getElem?_eq_getElem ha,
      hbefore a h1 h2 _ (List.getElem?_eq_getElem ha)⟩
  · intro a h1 h2
    have ha : a < xs2.length := by omega
    exact ⟨xs2[a], List.getElem?_eq_getElem ha,
      hafter a h1 h2 _ (List.getElem?_eq_getElem ha)⟩

/-- Witness of claim C16 on the sub-range `[1, 5)` of an array with repeated
values. -/
theorem select_arranges_array_witness :
    1 < 5 ∧ 5 ≤ ([7, 3, 2, 3, 1, 0] : List ℤ).length ∧ 2 < 5 - 1 ∧
    ∃ v xs2 t2, impl.select (fun t => 7 * t + 3) ([7, 3, 2, 3, 1, 0] : List ℤ) 1 5 2 0
        = some (v, xs2, t2) ∧
      xs2[1 + 2]? = some v ∧
      (∀ a, 1 ≤ a → a < 1 + 2 → ∃ w, xs2[a]? = some w ∧ w ≤ v) ∧
      (∀ a, 1 + 2 < a → a < 5 → ∃ w, xs2[a]? = some w ∧ v ≤ w) :=
  ⟨by decide, by decide, by decide,
    select_arranges_array (fun t => 7 * t + 3) [7, 3, 2, 3, 1, 0] 1 5 2 0
      (by decide) (by decide) (by decide)⟩

/-- Claim C17. `select` terminates for every stream of pivot choices: called
with `0 ≤ l < r` and `i < r - l`, a recursion depth of `r - l` activations
(so `r - l - 1` nested recursive calls) is enough, as every larger depth bound
gives the same outcome; each recursive call is on a strictly smaller
sub-range; a run that returns has made at most `r - l - 1` calls of
`partition` (one random number each); and on a sub-range inside the array the
run does return. -/
theorem select_terminates [LinearOrder α] (rand : Nat → Nat) (xs : List α)
    (l r i t : Nat) (hlr : l < r) (hi : i < r - l) :
    (∀ fuel, r - l ≤ fuel →
      impl.selectFuel rand fuel xs l r i t = impl.select rand xs l r i t) ∧
    (∀ xs1 l1 r1 i1 t1,
      impl.selectBody rand xs l r i t = some (impl.SelectStep.call xs1 l1 r1 i1 t1) →
      r1 - l1 < r - l) ∧
    (∀ v xs2 t2, impl.select rand xs l r i t = some (v, xs2, t2) →
      t ≤ t2 ∧ t2 - t ≤ r - l - 1) ∧
    (r ≤ xs.length → ∃ v xs2 t2, impl.select rand xs l r i t = some (v, xs2, t2)) := by
  refine ⟨?_, ?_, ?_, ?_⟩
  · intro fuel hfuel
    exact impl.selectFuel_stable rand fuel (r - l) xs l r i t hfuel (le_refl _)
  · intro xs1 l1 r1 i1 t1 h
    exact (impl.selectBody_call_lt rand xs l r i t xs1 l1 r1 i1 t1 h).1
  · intro v xs2 t2 h
    have h1 := (impl.selectFuel_counter rand _ _ _ _ _ _ _ _ _ h).1
    have h2 := impl.selectFuel_draws rand _ _ _ _ _ _ _ _ _ h hlr hi
    omega
  · intro hr
    obtain ⟨v, xs2, t2, hrun, -⟩ := impl.select_spec rand xs l r i t hlr hr hi
    exact ⟨v, xs2, t2, hrun⟩

/-- Witness of claim C17 on the array `6, 1, 2, 5, 9` of the unit test, with
the pivot always at the first cell of the sub-range. -/
theorem select_terminates_witness :
    0 < 5 ∧ 4 < 5 - 0 ∧
    ((∀ fuel, 5 - 0 ≤ fuel →
      impl.selectFuel (fun _ => 0) fuel ([6, 1, 2, 5, 9] : List ℤ) 0 5 4 0
        = impl.select (fun _ => 0) ([6, 1, 2, 5, 9] : List ℤ) 0 5 4 0) ∧
    (∀ xs1 l1 r1 i1 t1,
      impl.selectBody (fun _ => 0) ([6, 1, 2, 5, 9] : List ℤ) 0 5 4 0
        = some (impl.SelectStep.call xs1 l1 r1 i1 t1) →
      r1 - l1 < 5 - 0) ∧
    (∀ v xs2 t2,
      impl.select (fun _ => 0) ([6, 1, 2, 5, 9] : List ℤ) 0 5 4 0 = some (v, xs2, t2) →
      0 ≤ t2 ∧ t2 - 0 ≤ 5 - 0 - 1) ∧
    (5 ≤ ([6, 1, 2, 5, 9] : List ℤ).length →
      ∃ v xs2 t2,
        impl.select (fun _ => 0) ([6, 1, 2, 5, 9] : List ℤ) 0 5 4 0 = some (v, xs2, t2))) :=
  ⟨by decide, by decide,
    select_terminates (fun _ => 0) [6, 1, 2, 5, 9] 0 5 4 0 (by decide) (by decide)⟩

end numeric

/-! ## The accesses of `partition` -/

namespace numeric

namespace impl

variable {α : Type}

/-- The logging scan computes what the scan computes, and the cells it
touches are scan indices or boundary indices: they lie between the first
boundary index and the end of the scan. -/
theorem partitionLoopLog_of_partitionLoop [LT α] [DecidableRel (fun (a b : α) => a < b)]
    (p : α) :
    ∀ (m : Nat) (xs : List α) (i j : Nat) (res : List α × Nat),
      partitionLoop p m xs i j = some res → i ≤ j →
      ∃ log, partitionLoopLog p m xs i j = some (res, log) ∧
        ∀ a ∈ log, i ≤ a ∧ a < j + m := by
  intro m
  induction m with
  | zero =>
    intro xs i j res h _
    simp only [partitionLoop, Option.some.injEq] at h
    subst h
    exact ⟨[], rfl, fun a ha => by cases ha⟩
  | succ m ih =>
    intro xs i j res h hij
    simp only [partitionLoop] at h
    cases hx : xs[j]? with
    | none => simp [hx] at h
    | some xj =>
      simp only [hx] at h
      by_cases hc : xj < p
      · simp only [hc, if_true] at h
        cases hs : swap xs j i with
        | none => simp [hs] at h
        | some xs1 =>
          simp only [hs] at h
          obtain ⟨log, hlog, hmem⟩ := ih xs1 (i + 1) (j + 1) res h (by omega)
          refine ⟨j :: j :: i :: log, ?_, ?_⟩
          · simp only [partitionLoopLog, hx, hc, if_true, hs, hlog]
          · intro a ha
            simp only [List.mem_cons] at ha
            rcases ha with h1 | h1 | h1 | h1
            · omega
            · omega
            · omega
            · have := hmem a h1
              omega
      · simp only [hc, if_false] at h
        obtain ⟨log, hlog, hmem⟩ := ih xs i (j + 1) res h (by omega)
        refine ⟨j :: log, ?_, ?_⟩
        · simp only [partitionLoopLog, hx, hc, if_false, hlog]
        · intro a ha
          simp only [List.mem_cons] at ha
          rcases ha with h1 | h1
          · omega
          · have := hmem a h1
            omega

end impl

/-- Claim C18. Under the precondition `0 ≤ l < r ≤ length` and `k < r - l`,
`partition(xs, k, l, r)` completes with every access in bounds, and every
index it reads or writes lies in `[l, r)`: the pivot index `l + k`, the scan
index, the boundary index at each exchange and the final index `i - 1`. -/
theorem partition_accesses_in_range {α : Type} [LinearOrder α] (xs : List α) (k l r : Nat)
    (hlr : l < r) (hr : r ≤ xs.length) (hk : k < r - l) :
    ∃ xs3 j log, impl.partitionLog xs k l r = some ((xs3, j), log) ∧
      impl.partition xs k l r = some (xs3, j) ∧
      l + k ∈ log ∧ l + j ∈ log ∧ ∀ a ∈ log, l ≤ a ∧ a < r := by
  have hkl : k + l < xs.length := by omega
  obtain ⟨xs1, hsw1, hlen1, -, hget1⟩ := impl.swap_spec xs l (k + l) (by omega) hkl
  obtain ⟨p, hp1⟩ : ∃ p, xs1[l]? = some p :=
    ⟨xs1[l], List.getElem?_eq_getElem (by omega)⟩
  obtain ⟨xs2, i, hrun, hlen2, -, -, hli, hir, -, -⟩ :=
    impl.partitionLoop_spec p l r (r - (l + 1)) xs1 (l + 1) (l + 1) (by omega) (le_refl _)
      (by omega) (by omega) (fun a h1 h2 => by omega) (fun a h1 h2 => by omega)
  obtain ⟨log, hlog, hmem⟩ :=
    impl.partitionLoopLog_of_partitionLoop p (r - (l + 1)) xs1 (l + 1) (l + 1) (xs2, i) hrun
      (le_refl _)
  obtain ⟨xs3, hsw3, -⟩ := impl.swap_spec xs2 l (i - 1) (by omega) (by omega)
  refine ⟨xs3, i - 1 - l, [l, k + l, l] ++ log ++ [l, i - 1], ?_, ?_, ?_, ?_, ?_⟩
  · simp only [impl.partitionLog, hsw1, hp1, hlog, hsw3]
  · simp only [impl.partition, hsw1, hp1, hrun, hsw3]
  · simp [Nat.add_comm]
  · have h : l + (i - 1 - l) = i - 1 := by omega
    simp [h]
  · intro a ha
    simp only [List.mem_append, List.mem_cons, List.mem_singleton, List.not_mem_nil,
      or_false] at ha
    rcases ha with ((h1 | h1 | h1) | h1) | h1 | h1
    · omega
    · omega
    · omega
    · have := hmem a h1
      omega
    · omega
    · omega

/-- Witness of claim C18 on the sub-range `[1, 5)` of an array of six
elements. -/
theorem partition_accesses_in_range_witness :
    1 < 5 ∧ 5 ≤ ([7, 3, 2, 3, 1, 0] : List ℤ).length ∧ 2 < 5 - 1 ∧
    ∃ xs3 j log, impl.partitionLog ([7, 3, 2, 3, 1, 0] : List ℤ) 2 1 5 = some ((xs3, j), log) ∧
      impl.partition ([7, 3, 2, 3, 1, 0] : List ℤ) 2 1 5 = some (xs3, j) ∧
      1 + 2 ∈ log ∧ 1 + j ∈ log ∧ ∀ a ∈ log, 1 ≤ a ∧ a < 5 :=
  ⟨by decide, by decide, by decide,
    partition_accesses_in_range [7, 3, 2, 3, 1, 0] 2 1 5 (by decide) (by decide) (by decide)⟩

end numeric

/-! ## The reductions in closed form -/

namespace numeric

open Finset in
/-- The loop of `mean` computes the sum of the first `c` cells. -/
theorem meanLoop_eq_sum {α : Type} [AddCommMonoid α] (xs : List α) :
    ∀ c, c ≤ xs.length → meanLoop xs c = Except.ok (∑ k in range c, xs.getD k 0) := by
  intro c
  induction c with
  | zero => intro _; simp [meanLoop]
  | succ c ih =>
    intro hc
    have hx : xs[c]? = some xs[c] := List.getElem?_eq_getElem (by omega)
    have hd : xs.getD c 0 = xs[c] := by simp [List.getD_eq_getElem?_getD, hx]
    simp only [meanLoop, ih (by omega), hx, Finset.sum_range_succ, hd]

open Finset in
/-- The loop of `variance` on a real-valued array computes the sum of the
squared deviations of the first `c` cells. -/
theorem varianceLoop_eq_sum {K : Type} [Field K] (m : K) (xs : List K) :
    ∀ c, c ≤ xs.length →
      varianceLoop id id m xs c
        = Except.ok (∑ k in range c, (xs.getD k 0 - m) * (xs.getD k 0 - m)) := by
  intro c
  induction c with
  | zero => intro _; simp [varianceLoop]
  | succ c ih =>
    intro hc
    have hx : xs[c]? = some xs[c] := List.getElem?_eq_getElem (by omega)
    have hd : xs.getD c 0 = xs[c] := by simp [List.getD_eq_getElem?_getD, hx]
    simp only [varianceLoop, ih (by omega), hx, Finset.sum_range_succ, hd, id]

open Finset in
/-- The loop of `correlation` on real-valued arrays computes the sum of the
products of the first `c` cells. -/
theorem dotLoop_eq_sum {K : Type} [Field K] (xs ys : List K) :
    ∀ c, c ≤ xs.length → c ≤ ys.length →
      dotLoop id xs ys c = Except.ok (∑ k in range c, xs.getD k 0 * ys.getD k 0) := by
  intro c
  induction c with
  | zero => intro _ _; simp [dotLoop]
  | succ c ih =>
    intro hcx hcy
    have hx : xs[c]? = some xs[c] := List.getElem?_eq_getElem (by omega)
    have hy : ys[c]? = some ys[c] := List.getElem?_eq_getElem (by omega)
    have hdx : xs.getD c 0 = xs[c] := by simp [List.getD_eq_getElem?_getD, hx]
    have hdy : ys.getD c 0 = ys[c] := by simp [List.getD_eq_getElem?_getD, hy]
    simp only [dotLoop, ih (by omega) (by omega), hx, hy, Finset.sum_range_succ, hdx, hdy, id]

/-- For a count `n ≥ 1` that fits `size_t`, the divisor `(double)(n - 1)` of
`variance` is `n - 1`. -/
theorem variance_divisor {K : Type} [Field K] (n : Nat) (h1 : 1 ≤ n) (h64 : n < 2 ^ 64) :
    (((n + 2 ^ 64 - 1) % 2 ^ 64 : Nat) : K) = (n : K) - 1 := by
  have h : (n + 2 ^ 64 - 1) % 2 ^ 64 = n - 1 := by omega
  rw [h, Nat.cast_sub h1, Nat.cast_one]

open Finset in
/-- The Cauchy-Schwarz bound on the quotient that `correlation` returns. -/
theorem pearson_abs_le_one (n : ℕ) (hn : 2 ≤ n) (x y : ℕ → ℝ) (mx my vx vy : ℝ)
    (hmx : mx = (∑ k in range n, x k) / n) (hmy : my = (∑ k in range n, y k) / n)
    (hvx : vx = (∑ k in range n, (x k - mx) * (x k - mx)) / ((n : ℝ) - 1))
    (hvy : vy = (∑ k in range n, (y k - my) * (y k - my)) / ((n : ℝ) - 1))
    (hvx0 : vx ≠ 0) (hvy0 : vy ≠ 0) :
    |((∑ k in range n, x k * y k) - n * mx * my) / (((n : ℝ) - 1) * √vx * √vy)| ≤ 1 := by
  have hn0 : (n : ℝ) ≠ 0 := by
    have : (0 : ℝ) < n := by exact_mod_cast (by omega : 0 < n)
    exact ne_of_gt this
  have hn1 : (0 : ℝ) < (n : ℝ) - 1 := by
    have : (2 : ℝ) ≤ n := by exact_mod_cast hn
    linarith
  have hsx : ∑ k in range n, x k = n * mx := by rw [hmx]; field_simp
  have hsy : ∑ k in range n, y k = n * my := by rw [hmy]; field_simp
  set A := ∑ k in range n, (x k - mx) * (x k - mx) with hA
  set B := ∑ k in range n, (y k - my) * (y k - my) with hB
  have hA0 : 0 ≤ A := Finset.sum_nonneg (fun k _ => mul_self_nonneg _)
  have hB0 : 0 ≤ B := Finset.sum_nonneg (fun k _ => mul_self_nonneg _)
  have hnum : (∑ k in range n, x k * y k) - n * mx * my
      = ∑ k in range n, (x k - mx) * (y k - my) := by
    have h : ∀ k, (x k - mx) * (y k - my) = x k * y k - mx * y k - my * x k + mx * my := by
      intro k; ring
    simp only [h, Finset.sum_add_distrib, Finset.sum_sub_distrib, ← Finset.mul_sum,
      Finset.sum_const, Finset.card_range, nsmul_eq_mul, hsx, hsy]
    ring
  have hcs : (∑ k in range n, (x k - mx) * (y k - my)) ^ 2 ≤ A * B := by
    have h := Finset.sum_mul_sq_le_sq_mul_sq (range n) (fun k => x k - mx) (fun k => y k - my)
    simpa [sq, hA, hB] using h
  have hvxpos : 0 < vx := by
    rcases lt_or_eq_of_le (div_nonneg hA0 (le_of_lt hn1)) with h | h
    · rw [hvx]; exact h
    · exact absurd (hvx.trans h.symm) hvx0
  have hvypos : 0 < vy := by
    rcases lt_or_eq_of_le (div_nonneg hB0 (le_of_lt hn1)) with h | h
    · rw [hvy]; exact h
    · exact absurd (hvy.trans h.symm) hvy0
  have hden : ((n : ℝ) - 1) * √vx * √vy = √(A * B) := by
    have h1 : A * B = (((n : ℝ) - 1) * ((n : ℝ) - 1)) * (vx * vy) := by
      rw [hvx, hvy]; field_simp
    rw [h1, Real.sqrt_mul (mul_self_nonneg _), Real.sqrt_mul_self (le_of_lt hn1),
      Real.sqrt_mul (le_of_lt hvxpos), mul_assoc]
  have hdpos : 0 < √(A * B) := by
    rw [← hden]
    exact mul_pos (mul_pos hn1 (Real.sqrt_pos.mpr hvxpos)) (Real.sqrt_pos.mpr hvypos)
  rw [hden, hnum, abs_div, abs_of_pos hdpos, div_le_one hdpos]
  exact Real.abs_le_sqrt hcs

end numeric

/-! ## Claims on `variance` and `correlation` -/

namespace numeric

/-- Claim C11. For real-valued sequences `xs` and `ys` of equal length
`n ≥ 2` (a `size_t` value) whose sample variances, as `variance` computes them
from the means that `mean` computes, are both nonzero, `correlation(xs, n, ys,
n)` returns a value in the closed interval `[-1, 1]`, in exact real
arithmetic. -/
theorem correlation_in_unit_interval (xs ys : List ℝ) (n : Nat)
    (hx : xs.length = n) (hy : ys.length = n) (hn : 2 ≤ n) (hn64 : n < 2 ^ 64)
    (mx vx my vy : ℝ)
    (hmx : mean id xs n = Except.ok mx) (hvx : variance id id xs n mx = Except.ok vx)
    (hmy : mean id ys n = Except.ok my) (hvy : variance id id ys n my = Except.ok vy)
    (hvx0 : vx ≠ 0) (hvy0 : vy ≠ 0) :
    ∃ c, correlation id id Real.sqrt xs n ys n = Except.ok c ∧ -1 ≤ c ∧ c ≤ 1 := by
  have hdot := dotLoop_eq_sum xs ys n (by omega) (by omega)
  have emx : mx = (∑ k in Finset.range n, xs.getD k 0) / n := by
    simp only [mean, meanLoop_eq_sum xs n (by omega), id, Except.ok.injEq] at hmx
    exact hmx.symm
  have emy : my = (∑ k in Finset.range n, ys.getD k 0) / n := by
    simp only [mean, meanLoop_eq_sum ys n (by omega), id, Except.ok.injEq] at hmy
    exact hmy.symm
  have evx : vx = (∑ k in Finset.range n, (xs.getD k 0 - mx) * (xs.getD k 0 - mx))
      / ((n : ℝ) - 1) := by
    simp only [variance, varianceLoop_eq_sum mx xs n (by omega), id,
      variance_divisor n (by omega) hn64, Except.ok.injEq] at hvx
    exact hvx.symm
  have evy : vy = (∑ k in Finset.range n, (ys.getD k 0 - my) * (ys.getD k 0 - my))
      / ((n : ℝ) - 1) := by
    simp only [variance, varianceLoop_eq_sum my ys n (by omega), id,
      variance_divisor n (by omega) hn64, Except.ok.injEq] at hvy
    exact hvy.symm
  have hbound := pearson_abs_le_one n hn (fun k => xs.getD k 0) (fun k => ys.getD k 0)
    mx my vx vy emx emy evx evy hvx0 hvy0
  refine ⟨_, ?_, (abs_le.mp hbound).1, (abs_le.mp hbound).2⟩
  unfold correlation
  rw [if_neg (not_not.mpr rfl)]
  simp only [hmx, hvx, hmy, hvy, hdot, id]

end numeric

namespace numeric

theorem mean_test_xs : mean id ([1, 2, 3, 4] : List ℝ) 4 = Except.ok (5 / 2) := by
  simp only [mean, meanLoop, List.getElem?_cons_zero, List.getElem?_cons_succ, id]
  norm_num

theorem mean_test_ys : mean id ([5, 6, 7, 8] : List ℝ) 4 = Except.ok (13 / 2) := by
  simp only [mean, meanLoop, List.getElem?_cons_zero, List.getElem?_cons_succ, id]
  norm_num

theorem mean_test_zs : mean id ([4, 3, 2, 1] : List ℝ) 4 = Except.ok (5 / 2) := by
  simp only [mean, meanLoop, List.getElem?_cons_zero, List.getElem?_cons_succ, id]
  norm_num

theorem variance_test_xs :
    variance id id ([1, 2, 3, 4] : List ℝ) 4 (5 / 2) = Except.ok (5 / 3) := by
  simp only [variance, varianceLoop, List.getElem?_cons_zero, List.getElem?_cons_succ, id]
  norm_num

theorem variance_test_ys :
    variance id id ([5, 6, 7, 8] : List ℝ) 4 (13 / 2) = Except.ok (5 / 3) := by
  simp only [variance, varianceLoop, List.getElem?_cons_zero, List.getElem?_cons_succ, id]
  norm_num

theorem variance_test_zs :
    variance id id ([4, 3, 2, 1] : List ℝ) 4 (5 / 2) = Except.ok (5 / 3) := by
  simp only [variance, varianceLoop, List.getElem?_cons_zero, List.getElem?_cons_succ, id]
  norm_num

/-- Witness of claim C11 on the arrays `1, 2, 3, 4` and `5, 6, 7, 8` of the
unit test. -/
theorem correlation_in_unit_interval_witness :
    ([1, 2, 3, 4] : List ℝ).length = 4 ∧ ([5, 6, 7, 8] : List ℝ).length = 4 ∧
    2 ≤ 4 ∧ 4 < 2 ^ 64 ∧
    mean id ([1, 2, 3, 4] : List ℝ) 4 = Except.ok (5 / 2) ∧
    variance id id ([1, 2, 3, 4] : List ℝ) 4 (5 / 2) = Except.ok (5 / 3) ∧
    mean id ([5, 6, 7, 8] : List ℝ) 4 = Except.ok (13 / 2) ∧
    variance id id ([5, 6, 7, 8] : List ℝ) 4 (13 / 2) = Except.ok (5 / 3) ∧
    (5 / 3 : ℝ) ≠ 0 ∧
    ∃ c, correlation id id Real.sqrt ([1, 2, 3, 4] : List ℝ) 4 ([5, 6, 7, 8] : List ℝ) 4
        = Except.ok c ∧ -1 ≤ c ∧ c ≤ 1 :=
  ⟨rfl, rfl, by decide, by decide, mean_test_xs, variance_test_xs, mean_test_ys,
    variance_test_ys, by norm_num,
    correlation_in_unit_interval [1, 2, 3, 4] [5, 6, 7, 8] 4 rfl rfl (by decide) (by decide)
      (5 / 2) (5 / 3) (13 / 2) (5 / 3) mean_test_xs variance_test_xs mean_test_ys
      variance_test_ys (by norm_num) (by norm_num)⟩

/-- Claim C12. In exact real arithmetic `correlation([1,2,3,4], 4,
[5,6,7,8], 4)` is `1` and `correlation([1,2,3,4], 4, [4,3,2,1], 4)` is
`-1`. -/
theorem correlation_of_test_arrays :
    correlation id id Real.sqrt ([1, 2, 3, 4] : List ℝ) 4 ([5, 6, 7, 8] : List ℝ) 4
      = Except.ok 1 ∧
    correlation id id Real.sqrt ([1, 2, 3, 4] : List ℝ) 4 ([4, 3, 2, 1] : List ℝ) 4
      = Except.ok (-1) := by
  have hs : (4 - 1) * Real.sqrt (5 / 3) * Real.sqrt (5 / 3) = (5 : ℝ) := by
    rw [mul_assoc, Real.mul_self_sqrt (by norm_num)]
    norm_num
  constructor
  · unfold correlation
    rw [if_neg (not_not.mpr rfl)]
    simp only [mean_test_xs, variance_test_xs, mean_test_ys, variance_test_ys]
    simp only [dotLoop, List.getElem?_cons_zero, List.getElem?_cons_succ, id, Nat.cast_ofNat,
      hs]
    norm_num
  · unfold correlation
    rw [if_neg (not_not.mpr rfl)]
    simp only [mean_test_xs, variance_test_xs, mean_test_zs, variance_test_zs]
    simp only [dotLoop, List.getElem?_cons_zero, List.getElem?_cons_succ, id, Nat.cast_ofNat,
      hs]
    norm_num

theorem doubleToInt_neg_half : doubleToInt (-1 / 2) = 0 := by
  have h : ¬ (0 : ℚ) ≤ -1 / 2 := by norm_num
  rw [doubleToInt, if_neg h, Int.ceil_eq_iff]
  norm_num

theorem doubleToInt_half : doubleToInt (1 / 2) = 0 := by
  have h : (0 : ℚ) ≤ 1 / 2 := by norm_num
  rw [doubleToInt, if_pos h, Int.floor_eq_iff]
  norm_num

/-- Claim C13, at the failing input. For the `int` array `1, 2` the mean that
`mean` returns is `3/2`; with it `variance` returns `0`, because each
deviation `-1/2` and `1/2` is truncated to the element type before it is
squared, while the Bessel-corrected value of the claim is `1/2`. -/
theorem variance_int_truncates :
    mean intToDouble ([1, 2] : List ℤ) 2 = Except.ok (3 / 2) ∧
    variance intToDouble doubleToInt ([1, 2] : List ℤ) 2 (3 / 2) = Except.ok 0 ∧
    ((intToDouble 1 - 3 / 2) ^ 2 + (intToDouble 2 - 3 / 2) ^ 2) / ((2 : ℚ) - 1) = 1 / 2 := by
  have h1 : intToDouble 1 - 3 / 2 = -1 / 2 := by norm_num [intToDouble]
  have h2 : intToDouble 2 - 3 / 2 = 1 / 2 := by norm_num [intToDouble]
  refine ⟨?_, ?_, ?_⟩
  · simp only [mean, meanLoop]
    norm_num [intToDouble]
  · simp only [variance, varianceLoop]
    simp only [List.getElem?_cons_zero, List.getElem?_cons_succ, h1, h2,
      doubleToInt_neg_half, doubleToInt_half]
    norm_num [intToDouble]
  · rw [h1, h2]
    norm_num

end numeric
